import Mathlib

/-!
Verification development for the cold-email generator.

The repository's core lives in `app/chains.py` (job extraction and e-mail
composition), `app/utils.py` (text normalisation) and `app/portfolio.py`
(portfolio-link lookup).  This file gives a shallow embedding of that code:
Python strings are modelled as `List Char`, Python's `re` operations on the
concrete patterns used by the code are translated into executable scanning
functions, and the optional generative collaborator (the LLM call plus JSON
parsing, an external service and library) is modelled by an `Except` input:
`Except.error ()` stands for "collaborator absent, request failed, or its
response failed to parse as a JSON list" (all of which the code catches and
ignores), while `Except.ok parsed` stands for a successfully parsed JSON
array of well-typed job objects.  Character classes follow Python's ASCII
behaviour (the inputs considered here are ASCII).
-/

namespace ColdEmail

/-- Python strings are modelled as lists of characters. -/
abbrev Str := List Char

/-- Python whitespace for `str.strip` and the regex class `\s`
(ASCII: space, tab, newline, carriage return, vertical tab, form feed). -/
def wsb (c : Char) : Bool :=
  c.toNat = 32 || c.toNat = 9 || c.toNat = 10 || c.toNat = 13 ||
  c.toNat = 11 || c.toNat = 12

/-- The regex class `[ \t]` used by `clean_text`'s second substitution. -/
def stb (c : Char) : Bool :=
  c.toNat = 32 || c.toNat = 9

/-- The regex class `\w` (ASCII): letters, digits and underscore. -/
def isWordChar (c : Char) : Bool :=
  (48 ≤ c.toNat && c.toNat ≤ 57) || (65 ≤ c.toNat && c.toNat ≤ 90) ||
  (97 ≤ c.toNat && c.toNat ≤ 122) || c.toNat = 95

/-- Python `str.lower` on one character (ASCII). -/
def lowerChar (c : Char) : Char :=
  if 65 ≤ c.toNat ∧ c.toNat ≤ 90 then Char.ofNat (c.toNat + 32) else c

/-- Python `str.lower` (ASCII). -/
def lowerStr (l : Str) : Str := l.map lowerChar

/-- Helper for Python `str.strip`: removes the trailing run of whitespace.
`run` buffers the whitespace run currently being read. -/
def rstripGo (run : Str) : Str → Str
  | [] => []
  | c :: rest =>
    if wsb c then rstripGo (run ++ [c]) rest
    else run ++ c :: rstripGo [] rest

/-- Python `str.strip()`: drop leading and trailing whitespace. -/
def pyStrip (l : Str) : Str := rstripGo [] (l.dropWhile wsb)

/-- `re.sub(r"\r\n", "\n", text)`: left-to-right replacement of CRLF pairs. -/
def subCRLF : Str → Str
  | [] => []
  | c :: rest =>
    if c = '\r' then
      match rest with
      | [] => ['\r']
      | d :: rest2 =>
        if d = '\n' then '\n' :: subCRLF rest2 else '\r' :: subCRLF (d :: rest2)
    else c :: subCRLF rest

/-- Emit a buffered `[ \t]` run for `re.sub(r"[ \t]{2,}", " ", ·)`:
a run of length at least 2 becomes one space, a single character stays. -/
def flushST (run : Str) : Str := if 2 ≤ run.length then [' '] else run

/-- Scanner for `re.sub(r"[ \t]{2,}", " ", ·)`; `run` buffers the current
space/tab run. -/
def goST (run : Str) : Str → Str
  | [] => flushST run
  | c :: rest =>
    if stb c then goST (run ++ [c]) rest
    else flushST run ++ c :: goST [] rest

/-- `re.sub(r"[ \t]{2,}", " ", text)`. -/
def collapseST (l : Str) : Str := goST [] l

/-- Emit a buffered newline run for `re.sub(r"\n{3,}", "\n\n", ·)`:
a run of at least 3 newlines becomes exactly 2, shorter runs stay. -/
def flushNL (run : Str) : Str := if 3 ≤ run.length then ['\n', '\n'] else run

/-- Scanner for `re.sub(r"\n{3,}", "\n\n", ·)`; `run` buffers the current
newline run. -/
def goNL (run : Str) : Str → Str
  | [] => flushNL run
  | c :: rest =>
    if c = '\n' then goNL (run ++ [c]) rest
    else flushNL run ++ c :: goNL [] rest

/-- `re.sub(r"\n{3,}", "\n\n", text)`. -/
def collapseNL (l : Str) : Str := goNL [] l

/-- `utils.clean_text` on a non-`None` string: normalise CRLF, collapse
runs of two or more spaces/tabs to one space, collapse runs of three or
more newlines to two, then strip. -/
def cleanStr (l : Str) : Str := pyStrip (collapseNL (collapseST (subCRLF l)))

/-- `utils.clean_text`, including the `None` case (which yields `""`). -/
def cleanText : Option Str → Str
  | none => []
  | some l => cleanStr l

/-- No two adjacent space/tab characters (the post-condition of the
`[ \t]{2,}` collapse, and the condition under which it is the identity). -/
def noAdjB : Str → Bool
  | [] => true
  | [_] => true
  | a :: b :: t => (!(stb a && stb b)) && noAdjB (b :: t)

/-- No three adjacent newlines (the post-condition of the `\n{3,}`
collapse, and the condition under which it is the identity). -/
def no3B : Str → Bool
  | a :: b :: c :: t =>
    (!(decide (a = '\n') && decide (b = '\n') && decide (c = '\n'))) &&
    no3B (b :: c :: t)
  | _ => true

/-- Exact prefix test (Python `str.startswith`, and one regex position probe). -/
def startsWith : Str → Str → Bool
  | [], _ => true
  | _ :: _, [] => false
  | a :: as, b :: bs => a = b && startsWith as bs

/-- Python's substring operator `pat in text` (true at some position,
including the empty pattern). -/
def containsSub (pat : Str) : Str → Bool
  | [] => pat.isEmpty
  | l@(_ :: rest) => startsWith pat l || containsSub pat rest

/-- Case-insensitive prefix match of a lower-case pattern against text,
modelling `re` matching with the `(?i)` flag. -/
def ciStarts : Str → Str → Bool
  | [], _ => true
  | _ :: _, [] => false
  | a :: as, b :: bs => a = lowerChar b && ciStarts as bs

/-- Number of `\w+` tokens, i.e. `len(re.findall(r"\w+", text))`:
counts maximal runs of word characters.  The flag records whether the
previous character was a word character. -/
def countTokens (inWord : Bool) : Str → Nat
  | [] => 0
  | c :: rest =>
    if isWordChar c then (if inWord then 0 else 1) + countTokens true rest
    else countTokens false rest

/-- `chains.NAV_NOISE`: the fixed navigation-chrome patterns.  All six are
literal strings, so `re.search` on them is substring containment. -/
def NAV_NOISE : List Str :=
  ["skip to main content", "filter results", "select a language",
   "clear filter", "menu", "brand"].map String.toList

/-- `chains._is_noise`: fewer than 4 word tokens, or some `NAV_NOISE`
pattern occurs in the lower-cased text. -/
def is_noise (t : Str) : Bool :=
  countTokens false t < 4 || NAV_NOISE.any (fun p => containsSub p (lowerStr t))

/-- The noise condition as the amended specification words it: fewer than
four word tokens, or a case-insensitive occurrence of one of the six fixed
navigation phrases of the source (`"skip to main content"`,
`"filter results"`, `"select a language"`, `"clear filter"`, `"menu"`,
`"brand"`); there is no pagination rule and no numeric-density rule. -/
def noiseSpecAmended (t : Str) : Bool :=
  countTokens false t < 4 ||
  ["skip to main content", "filter results", "select a language",
   "clear filter", "menu", "brand"].any
    (fun p => containsSub p.toList (lowerStr t))

/-- Scanner for `re.split(r"\n{2,}", text)`: `cur` is the current fragment
(reversed), `cnt` the length of the pending newline run.  A run of two or
more newlines separates fragments; a single newline stays in the fragment. -/
def sbGo (cur : Str) (cnt : Nat) : Str → List Str
  | [] =>
    if 2 ≤ cnt then [cur.reverse, []]
    else [(List.replicate cnt '\n' ++ cur).reverse]
  | c :: rest =>
    if c = '\n' then sbGo cur (cnt + 1) rest
    else if 2 ≤ cnt then cur.reverse :: sbGo [c] 0 rest
    else sbGo (c :: (List.replicate cnt '\n' ++ cur)) 0 rest

/-- `re.split(r"\n{2,}", text)`. -/
def splitBlank (t : Str) : List Str := sbGo [] 0 t

/-- Scanner for Python `str.splitlines`; `acc` is the current line,
reversed.  A `\r\n` pair closes one line; a lone `\r` or `\n` closes one
line as well. -/
def slGo (acc : Str) : Str → List Str
  | [] => if acc = [] then [] else [acc.reverse]
  | c :: rest =>
    if c = '\r' then
      match rest with
      | [] => [acc.reverse]
      | d :: rest2 =>
        if d = '\n' then acc.reverse :: slGo [] rest2
        else acc.reverse :: slGo [] (d :: rest2)
    else if c = '\n' then acc.reverse :: slGo [] rest
    else slGo (c :: acc) rest

/-- Python `str.splitlines` restricted to the line breaks that occur in the
texts handled here: `\r\n`, `\r` and `\n`. -/
def pySplitlines (t : Str) : List Str := slGo [] t

/-- The header vocabulary of `_extract_skills_block`'s first regex, in the
source's alternation order. -/
def headersSB : List Str :=
  ["requirements", "qualifications", "skills", "you should have",
   "what we\x27re looking for"].map String.toList

/-- `re.search(r"(?is)(requirements|...)[\s:.-]*(.*)", text)`, returning the
text after the end of group 1 (`text[m.end(1):]`), or `none` when no header
occurs.  The trailing `[\s:.-]*(.*)` always matches, so the search succeeds
exactly when some header occurs; positions are scanned left to right and
alternatives in order, as `re` does. -/
def findTail : Str → Option Str
  | [] => none
  | l@(_ :: rest) =>
    match headersSB.find? (fun h => ciStarts h l) with
    | some h => some (l.drop h.length)
    | none => findTail rest

/-- The character class kept by `re.sub(r"[^\w\s\+\#\.\-]", "", b)`. -/
def keepPunct (c : Char) : Bool :=
  isWordChar c || wsb c || c = '+' || c = '#' || c = '.' || c = '-'

/-- The bullet-marker class `[\-•\*\•]`. -/
def bulletChar (c : Char) : Bool := c = '-' || c = '•' || c = '*'

/-- Scanner for `re.findall(r"(?m)^[\-•\*\•]\s*(.+)$", tail)`.
At a line start holding a bullet marker, `\s*` greedily eats whitespace
(which may cross line breaks) and `(.+)$` captures the following run of
non-newline characters; when the whitespace reaches the end of the input
the engine backtracks and captures the trailing newline-free part of the
whitespace run, if non-empty.  `atLS` tracks whether the scanner sits at a
`(?m)^` position (start of input or just after `\n`).  Fuel is the input
length plus one; every step consumes at least one character. -/
def bulletsGo : Nat → Bool → Str → List Str
  | 0, _, _ => []
  | _ + 1, _, [] => []
  | fuel + 1, atLS, c :: rest =>
    if atLS && bulletChar c then
      match rest.dropWhile wsb with
      | [] =>
        let w := rest.takeWhile wsb
        let tr := (w.reverse.takeWhile (fun d => !(d = '\n'))).reverse
        if tr = [] then [] else [tr]
      | _ :: _ =>
        let rest2 := rest.dropWhile wsb
        let capture := rest2.takeWhile (fun d => !(d = '\n'))
        capture :: bulletsGo fuel false (rest2.drop capture.length)
    else if c = '\n' then bulletsGo fuel true rest
    else bulletsGo fuel false rest

/-- `re.findall(r"(?m)^[\-•\*\•]\s*(.+)$", tail)`. -/
def bullets (tail : Str) : List Str := bulletsGo (tail.length + 1) true tail

/-- Scanner for `re.split(r"[;,/]| and | or ", part)`: split at single
`;`/`,`/`/` characters or at the literal words `" and "` / `" or "`,
leftmost first, character class first.  `cur` is the current fragment,
reversed.  Fuel is the input length plus one. -/
def splitSkillsGo : Nat → Str → Str → List Str
  | 0, cur, rest => [cur.reverse ++ rest]
  | _ + 1, cur, [] => [cur.reverse]
  | fuel + 1, cur, l@(c :: rest) =>
    if c = ';' || c = ',' || c = '/' then cur.reverse :: splitSkillsGo fuel [] rest
    else if startsWith " and ".toList l then cur.reverse :: splitSkillsGo fuel [] (l.drop 5)
    else if startsWith " or ".toList l then cur.reverse :: splitSkillsGo fuel [] (l.drop 4)
    else splitSkillsGo fuel (c :: cur) rest

/-- `re.split(r"[;,/]| and | or ", part)`. -/
def splitSkills (l : Str) : List Str := splitSkillsGo (l.length + 1) [] l

/-- The capture class `[A-Za-z0-9 ,/\+\-#]` of the inline skills regex. -/
def inlineCls (c : Char) : Bool :=
  (65 ≤ c.toNat && c.toNat ≤ 90) || (97 ≤ c.toNat && c.toNat ≤ 122) ||
  (48 ≤ c.toNat && c.toNat ≤ 57) ||
  c = ' ' || c = ',' || c = '/' || c = '+' || c = '-' || c = '#'

/-- Keyword alternatives of `(?:skills?|requirements?)` in the order the
greedy engine tries them. -/
def inlineKws : List Str :=
  ["skills", "skill", "requirements", "requirement"].map String.toList

/-- Scanner for
`re.findall(r"(?i)(?:skills?|requirements?)[:\s]*([A-Za-z0-9 ,/\+\-#]+)", text)`.
After a keyword, `[:\s]*` greedily eats colons/whitespace and the class
captures a non-empty run; when no class character follows, the engine
backtracks into the eaten run and captures a single space if the run
contains one (any character of the run that lies in the class is a space),
otherwise the match fails and scanning resumes one character further on. -/
def inlineGo : Nat → Str → List Str
  | 0, _ => []
  | _ + 1, [] => []
  | fuel + 1, l@(_ :: rest) =>
    match inlineKws.find? (fun k => ciStarts k l) with
    | some k =>
      let afterKw := l.drop k.length
      let w := afterKw.takeWhile (fun d => d = ':' || wsb d)
      let rest2 := afterKw.dropWhile (fun d => d = ':' || wsb d)
      let cap := rest2.takeWhile inlineCls
      if cap ≠ [] then cap :: inlineGo fuel (rest2.drop cap.length)
      else if w.any (fun d => d = ' ') then [' '] :: inlineGo fuel rest2
      else inlineGo fuel rest
    | none => inlineGo fuel rest

/-- `re.findall(r"(?i)(?:skills?|requirements?)[:\s]*([A-Za-z0-9 ,/\+\-#]+)", text)`. -/
def inlineFind (t : Str) : List Str := inlineGo (t.length + 1) t

/-- The source's order-preserving deduplication loop
(`for s in skills: if s not in uniq: uniq.append(s)`). -/
def pyUniqGo {α : Type} [DecidableEq α] (acc : List α) : List α → List α
  | [] => acc
  | u :: rest => if u ∈ acc then pyUniqGo acc rest else pyUniqGo (acc ++ [u]) rest

/-- Order-preserving deduplication keeping first occurrences. -/
def pyUniq {α : Type} [DecidableEq α] (l : List α) : List α := pyUniqGo [] l

/-- Python `sep.join(xs)`. -/
def joinWith (sep : Str) : List Str → Str
  | [] => []
  | [x] => x
  | x :: y :: rest => x ++ sep ++ joinWith sep (y :: rest)

/-- Candidates taken from the text after a located header: bullet lines
(`[re.sub(r"[^\w\s\+\#\.\-]","",b).strip().lower() for b in bullets if b.strip()]`)
when any exist, else the first four non-empty stripped lines joined and
split on separators
(`[s.strip().lower() for s in re.split(r"[;,/]| and | or ", candidate) if s.strip()]`). -/
def skillsFromTail (tail : Str) : List Str :=
  if bullets tail ≠ [] then
    ((bullets tail).filter (fun b => pyStrip b ≠ [])).map
      (fun b => lowerStr (pyStrip (b.filter keepPunct)))
  else
    ((splitSkills (joinWith [' ']
        ((((pySplitlines tail).map pyStrip).filter (fun x => x ≠ [])).take 4))).filter
      (fun x => pyStrip x ≠ [])).map (fun x => lowerStr (pyStrip x))

/-- The header-located layer of `_extract_skills_block`. -/
def skillsHeader (text : Str) : List Str :=
  match findTail text with
  | some tail => skillsFromTail tail
  | none => []

/-- The inline layer of `_extract_skills_block`: the first two inline
captures, each split on separators, stripped and lower-cased. -/
def skillsInline (text : Str) : List Str :=
  ((inlineFind text).take 2).flatMap (fun part =>
    ((splitSkills part).filter (fun x => pyStrip x ≠ [])).map
      (fun x => lowerStr (pyStrip x)))

/-- `chains._extract_skills_block`: the header layer, else the inline
layer; the result deduplicated preserving first-seen order textually
(`uniq`) and capped at 30. -/
def extract_skills_block (text : Str) : List Str :=
  (pyUniq (if skillsHeader text = [] then skillsInline text
           else skillsHeader text)).take 30

/-- `chains.ROLE_KEYWORDS`: the role-title vocabulary (all literal
alternatives, so the case-insensitive search is substring containment). -/
def ROLE_KEYWORDS : List Str :=
  ["engineer", "developer", "manager", "analyst", "designer", "intern",
   "scientist", "specialist", "consultant", "associate", "sales", "product",
   "security", "research", "backend", "frontend"].map String.toList

/-- `re.search(ROLE_KEYWORDS, ln, flags=re.I)` succeeds. -/
def hasRoleKw (ln : Str) : Bool :=
  ROLE_KEYWORDS.any (fun k => containsSub k (lowerStr ln))

/-- Scanner replacing every maximal run of characters satisfying `p` by a
single space, for `re.sub(r"\s+", " ", ·)` and `re.sub(r"\W+", " ", ·)`. -/
def runSubGo (p : Char → Bool) (inRun : Bool) : Str → Str
  | [] => []
  | c :: rest =>
    if p c then
      (if inRun then runSubGo p true rest else ' ' :: runSubGo p true rest)
    else c :: runSubGo p false rest

/-- `re.sub(r"\s+", " ", title).strip()` — the title clean-up. -/
def collapseWS (l : Str) : Str := pyStrip (runSubGo wsb false l)

/-- `re.sub(r"\W+", " ", title).strip().lower()` — the dedup key. -/
def normKey (title : Str) : Str :=
  lowerStr (pyStrip (runSubGo (fun c => !isWordChar c) false title))

/-- Match `\s+years` (case-insensitive) at the head of `m`, returning the
matched length. -/
def wsYears (m : Str) : Option Nat :=
  let w := m.takeWhile wsb
  if w ≠ [] && ciStarts "years".toList (m.drop w.length) then some (w.length + 5)
  else none

/-- Match the experience regex
`(\d+\+?\s+years|\d+\s+years|mid[\- ]level|senior|junior|entry|intern)`
(case-insensitive) at the head of `l`, returning the matched length.
`\d+` never profits from giving digits back (the next required character
is `+` or whitespace, never a digit), so it takes the maximal digit run. -/
def matchExpAt (l : Str) : Option Nat :=
  let ds := l.takeWhile Char.isDigit
  if ds ≠ [] then
    match l.drop ds.length with
    | '+' :: after2 =>
      match wsYears after2 with
      | some n => some (ds.length + 1 + n)
      | none =>
        match wsYears (l.drop ds.length) with
        | some n => some (ds.length + n)
        | none => none
    | after =>
      match wsYears after with
      | some n => some (ds.length + n)
      | none => none
  else if ciStarts "mid".toList l &&
          (match (l.drop 3).head? with
           | some c => c = '-' || c = ' '
           | none => false) &&
          ciStarts "level".toList (l.drop 4) then some 9
  else if ciStarts "senior".toList l then some 6
  else if ciStarts "junior".toList l then some 6
  else if ciStarts "entry".toList l then some 5
  else if ciStarts "intern".toList l then some 6
  else none

/-- `re.search` for the experience pattern: leftmost match, returned as the
original-case matched substring (`m.group(0)`). -/
def expSearch : Str → Option Str
  | [] => none
  | l@(_ :: rest) =>
    match matchExpAt l with
    | some n => some (l.take n)
    | none => expSearch rest

/-- The `common` skill-keyword vocabulary of the block-scan fallback.
The source stores it as a Python set, whose iteration order is
unspecified; it is modelled as a list in the literal's order (no claim
below depends on that order). -/
def commonSkills : List Str :=
  ["python", "java", "aws", "sql", "react", "docker", "kubernetes", "ml",
   "ai", "devops", "sales", "design", "javascript"].map String.toList

/-- Scanner collecting maximal runs of characters satisfying `p`
(`re.findall` on a `[...]{k,}` class before the length filter);
`cur` is the current run, reversed. -/
def runsGo (p : Char → Bool) (cur : Str) : Str → List Str
  | [] => if cur = [] then [] else [cur.reverse]
  | c :: rest =>
    if p c then runsGo p (c :: cur) rest
    else if cur = [] then runsGo p [] rest
    else cur.reverse :: runsGo p [] rest

/-- Maximal runs of characters satisfying `p`. -/
def runsOf (p : Char → Bool) (l : Str) : List Str := runsGo p [] l

/-- The class `[A-Za-z\+#\-]` of the title-token fallback. -/
def titleCls (c : Char) : Bool :=
  (65 ≤ c.toNat && c.toNat ≤ 90) || (97 ≤ c.toNat && c.toNat ≤ 122) ||
  c = '+' || c = '#' || c = '-'

/-- `[t.lower() for t in re.findall(r"[A-Za-z\+#\-]{3,}", title) if t.lower() in common]`. -/
def titleSkills (title : Str) : List Str :=
  (((runsOf titleCls title).filter (fun t => 3 ≤ t.length)).map lowerStr).filter
    (fun t => t ∈ commonSkills)

/-- `re.search(r"\b" + re.escape(sk) + r"\b", lowb)` for a non-empty
word-character pattern: the pattern occurs with no word character directly
before or after.  `prevNonWord` records whether the previous character was
a non-word character (or the start of the text). -/
def containsWordGo (pat : Str) (prevNonWord : Bool) : Str → Bool
  | [] => false
  | l@(c :: rest) =>
    (prevNonWord && startsWith pat l &&
      (match l.drop pat.length with
       | [] => true
       | d :: _ => !isWordChar d)) ||
    containsWordGo pat (!isWordChar c) rest

/-- Word-boundary search for a skill keyword. -/
def containsWord (pat : Str) (t : Str) : Bool := containsWordGo pat true t

/-- The block-scan fallback `[sk for sk in common if re.search(rb"\bsk\b", lowb)]`. -/
def blockScanSkills (b : Str) : List Str :=
  commonSkills.filter (fun sk => containsWord sk (lowerStr b))

/-- The layered skills computation of `extract_jobs` for one block:
`_extract_skills_block`, else title tokens found in the common vocabulary,
else the block-wide keyword scan. -/
def skillsOf (b : Str) (title : Str) : List Str :=
  if extract_skills_block b ≠ [] then extract_skills_block b
  else if titleSkills title ≠ [] then titleSkills title
  else blockScanSkills b

/-- The canonical job record (`{"role", "experience", "skills", "description"}`). -/
structure JobRecord where
  role : Str
  experience : Str
  skills : List Str
  description : Str
deriving DecidableEq

/-- A job object as delivered by the generative collaborator after JSON
parsing: the four fields with `o.get(...)` defaults already applied.
Objects of any other shape raise inside the `try` block and are covered by
the `Except.error` case of `extract_jobs`. -/
structure RawJob where
  role : Str
  experience : Str
  skills : List Str
  description : Str
deriving DecidableEq

/-- The normalisation the LLM path applies to each parsed object
(`.strip()` on the strings, `[s.strip() for s in skills]`). -/
def normRaw (o : RawJob) : JobRecord :=
  { role := pyStrip o.role
    experience := pyStrip o.experience
    skills := o.skills.map pyStrip
    description := pyStrip o.description }

/-- `[l.strip() for l in b.splitlines() if l.strip()]`. -/
def linesOf (b : Str) : List Str :=
  ((pySplitlines b).map pyStrip).filter (fun x => x ≠ [])

/-- The title scan: the first of the first six lines matching the role
vocabulary with `3 < len(ln) < 140`, else the first line. -/
def pickTitle (lines : List Str) : Str :=
  match (lines.take 6).find?
      (fun ln => hasRoleKw ln && decide (3 < ln.length) && decide (ln.length < 140)) with
  | some ln => ln
  | none => lines.headD []

/-- The cleaned title of a block. -/
def roleOf (b : Str) : Str := collapseWS (pickTitle (linesOf b))

/-- The dedup key of a block. -/
def keyOf (b : Str) : Str := normKey (roleOf b)

/-- The description lines: all block lines, minus the first when it equals
the cleaned title after stripping. -/
def descLines (lines : List Str) (title : Str) : List Str :=
  match lines with
  | [] => []
  | l0 :: rest => if pyStrip l0 = pyStrip title then rest else l0 :: rest

/-- The joined, stripped description before truncation. -/
def descJoined (lines : List Str) (title : Str) : Str :=
  pyStrip (joinWith [' '] (descLines lines title))

/-- Description assembly: drop the first line when it equals the cleaned
title, join with single spaces, strip, truncate at 2000 characters with an
ellipsis suffix. -/
def descOf (lines : List Str) (title : Str) : Str :=
  if 2000 < (descJoined lines title).length
  then (descJoined lines title).take 2000 ++ "...".toList
  else descJoined lines title

/-- The record assembled from a single accepted block. -/
def recordOf (b : Str) : JobRecord :=
  let lines := linesOf b
  let title := collapseWS (pickTitle lines)
  { role := title
    experience := (expSearch b).getD "Not specified".toList
    skills := skillsOf b title
    description := descOf lines title }

/-- The per-block assembly loop of `extract_jobs`: noise re-check, line
split, title pick, dedup against `seen`, record construction. -/
def processBlocks : List Str → List Str → List JobRecord
  | [], _ => []
  | b :: bs, seen =>
    if is_noise b then processBlocks bs seen
    else if linesOf b = [] then processBlocks bs seen
    else if roleOf b = [] ∨ keyOf b ∈ seen then processBlocks bs seen
    else recordOf b :: processBlocks bs (keyOf b :: seen)

/-- The text-heuristics segmentation (`re.split(r"\n{2,}", page_text)`,
strip, discard fragments shorter than 40 characters or noisy). -/
def paraBlocks (t : Str) : List Str :=
  ((splitBlank t).map pyStrip).filter
    (fun p => p ≠ [] && decide (40 ≤ p.length) && !is_noise p)

/-- The guaranteed fallback record (`role "Unknown role"`,
`description = page_text[:1500]`). -/
def fallbackRecord (t : Str) : JobRecord :=
  { role := "Unknown role".toList
    experience := "Not specified".toList
    skills := []
    description := t.take 1500 }

/-- The heuristic pipeline of `Chain.extract_jobs` on the stripped page
text, with the optional HTML parser unavailable (so candidate blocks come
from the text-heuristics fallback); if no block yields a record, the single
fallback record is returned. -/
def extract_jobs_heuristic (t : Str) : List JobRecord :=
  if processBlocks (paraBlocks t) [] = [] then [fallbackRecord t]
  else processBlocks (paraBlocks t) []

/-- `Chain.extract_jobs`.  The first argument models the LLM-first stage:
`Except.error ()` covers the collaborator being absent and every exception
raised inside the `try` block (request failure, malformed JSON, wrongly
typed fields); `Except.ok parsed` is a successfully parsed JSON array.  As
in the source, a parsed empty array falls through to the heuristic
pipeline, and a non-empty one is returned after field normalisation. -/
def extract_jobs (llm : Except Unit (List RawJob)) (page_text : Str) : List JobRecord :=
  let t := pyStrip page_text
  match llm with
  | Except.ok parsed =>
    if parsed = [] then extract_jobs_heuristic t else parsed.map normRaw
  | Except.error _ => extract_jobs_heuristic t

/-- Break a word longer than `width` into `width`-sized chunks
(`textwrap`'s `break_long_words`); fuel is the word length. -/
def chunksGo (width : Nat) : Nat → Str → List Str
  | 0, w => if w = [] then [] else [w]
  | fuel + 1, w =>
    if w.length ≤ width then (if w = [] then [] else [w])
    else w.take width :: chunksGo width fuel (w.drop width)

/-- Chunks of a word for greedy wrapping. -/
def chunks (width : Nat) (w : Str) : List Str := chunksGo width w.length w

/-- Greedy line packing at `width` columns; `cur` is the line being built. -/
def greedyGo (width : Nat) (cur : Str) : List Str → List Str
  | [] => if cur = [] then [] else [cur]
  | w :: ws =>
    if cur = [] then greedyGo width w ws
    else if cur.length + 1 + w.length ≤ width then greedyGo width (cur ++ ' ' :: w) ws
    else cur :: greedyGo width w ws

/-- `textwrap.fill(line, width)`, modelled by its default greedy algorithm:
whitespace runs become single separators, words are packed greedily into
lines of at most `width` columns, words longer than `width` are broken.
(The stdlib's hyphen-aware refinements are not modelled; no claim depends
on the wrapped layout.) -/
def wrapFill (width : Nat) (line : Str) : Str :=
  let words := (runsOf (fun c => !wsb c) line).flatMap (chunks width)
  joinWith ['\n'] (greedyGo width [] words)

/-- Subject template selection (`random.choice(subj_templates)` with the
choice supplied as an index, `.format(role=role)` applied). -/
def subjectOf (i : Nat) (role : Str) : Str :=
  match i % 3 with
  | 0 => "Quick intro — ".toList ++ role
  | 1 => "Interest in ".toList ++ role
  | _ => "Portfolio for ".toList ++ role

/-- Body template selection with placeholders filled in. -/
def bodyOf (i : Nat) (role skillStr snippet : Str) : Str :=
  match i % 3 with
  | 0 =>
    "Hi,\n\nI saw the ".toList ++ role ++ " opening. I specialize in ".toList ++
    skillStr ++ ". A quick example: \"".toList ++ snippet ++
    "\". Would you be open to a short call?".toList
  | 1 =>
    "Hello,\n\nI\x27m reaching out about the ".toList ++ role ++
    " role. My background includes ".toList ++ skillStr ++
    ". I can share relevant demos on request.".toList
  | _ =>
    "Hi,\n\nNoticed the ".toList ++ role ++
    " role. I have hands-on experience with ".toList ++ skillStr ++
    ". Briefly: ".toList ++ snippet ++ ". Happy to connect for 15 mins.".toList

/-- The `skill_str` of the fallback generator
(`", ".join(top) if top else "relevant experience"`). -/
def skillStrOf (job : JobRecord) : Str :=
  if job.skills.take 3 ≠ [] then joinWith ", ".toList (job.skills.take 3)
  else "relevant experience".toList

/-- The `snippet` of the fallback generator
(`re.sub(r"\s+"," ", desc)[:140].strip() or "short summary available on request"`). -/
def snippetOf (job : JobRecord) : Str :=
  if pyStrip ((runSubGo wsb false job.description).take 140) = []
  then "short summary available on request".toList
  else pyStrip ((runSubGo wsb false job.description).take 140)

/-- The `links_block` of the fallback generator. -/
def linksBlockOf (links : List Str) : Str :=
  if links ≠ [] then
    "\n\nRelevant work samples:\n".toList ++
    joinWith ['\n'] ((links.take 5).map (fun u => "- ".toList ++ u))
  else "\n\nI can share work samples on request.".toList

/-- The `email_text` f-string assembled by the fallback generator, before
the final line-wrapping pass. -/
def emailText (rand : Nat × Nat) (job : JobRecord) (links : List Str)
    (sender : Str) : Str :=
  "Subject: ".toList ++ subjectOf rand.1 job.role ++ "\n\n".toList ++
  bodyOf rand.2 job.role (skillStrOf job) (snippetOf job) ++
  linksBlockOf links ++
  ("\n\nBest regards,\n".toList ++ sender ++ "\n[your-email@example.com]".toList)

/-- The deterministic fallback generator of `Chain.write_mail`.  `rand`
supplies the two `random.choice` draws as indices; the final pass re-joins
the lines, wrapping any line longer than 120 characters at width 100. -/
def compose_fallback (rand : Nat × Nat) (job : JobRecord) (links : List Str)
    (sender : Str) : Str :=
  joinWith ['\n'] ((pySplitlines (emailText rand job links sender)).map
    (fun line => if 120 < line.length then wrapFill 100 line else line))

/-- `Chain.write_mail`.  The first argument models the generative path:
`Except.ok content` is a successful collaborator response (returned
stripped, as the source does), `Except.error ()` covers the collaborator
being absent and every exception inside the `try` block, which fall through
to the deterministic template generator. -/
def write_mail (llm : Except Unit Str) (rand : Nat × Nat) (job : JobRecord)
    (links : List Str) (sender : Str) : Str :=
  match llm with
  | Except.ok content => pyStrip content
  | Except.error _ => compose_fallback rand job links sender

/-- One row of the portfolio CSV (`title,url,skills`), all text fields. -/
structure PRow where
  title : Str
  url : Str
  skills : Str
deriving DecidableEq

/-- Scanner for Python `str.split(",")`; `cur` is the current piece,
reversed.  Empty pieces are kept, as in Python. -/
def scGo (cur : Str) : Str → List Str
  | [] => [cur.reverse]
  | c :: rest =>
    if c = ',' then cur.reverse :: scGo [] rest else scGo (c :: cur) rest

/-- Python `str.split(",")`. -/
def splitComma (s : Str) : List Str := scGo [] s

/-- `[s.strip().lower() for s in s0.split(",") if s.strip()]` — used both
for a row's skill tags and for a string-typed query. -/
def parseSkills (s : Str) : List Str :=
  ((splitComma s).filter (fun x => pyStrip x ≠ [])).map
    (fun x => lowerStr (pyStrip x))

/-- The row-match condition of `Portfolio.query_links`: some query term is
a substring of some row tag, or vice versa. -/
def rowMatches (skills : List Str) (row : PRow) : Bool :=
  let rowSkills := parseSkills row.skills
  skills.any (fun sk =>
    rowSkills.any (fun rs => containsSub sk rs) ||
    rowSkills.any (fun rs => containsSub rs sk))

/-- The row loop of `Portfolio.query_links`: collect the URL of every
matching row (every row with a URL, when the query is empty). -/
def qlResults (skills : List Str) : List PRow → List Str
  | [] => []
  | row :: rest =>
    if (if skills = [] then true else rowMatches skills row) && row.url ≠ []
    then row.url :: qlResults skills rest
    else qlResults skills rest

/-- `Portfolio.query_links` when called with a list of query terms (the
list is used verbatim, as in the source). -/
def query_links_list (rows : List PRow) (skills : List Str) : List Str :=
  (pyUniq (qlResults skills rows)).take 10

/-- `Portfolio.query_links` when called with a string query: the string is
split on commas, stripped and lower-cased first. -/
def query_links_str (rows : List PRow) (q : Str) : List Str :=
  query_links_list rows (parseSkills q)

/-! ### Helper lemmas: characters and lower-casing -/

theorem toNat_ofNat_small (n : Nat) (h : n < 55296) : (Char.ofNat n).toNat = n := by
  have hv : n.isValidChar := Or.inl h
  simp only [Char.ofNat, dif_pos hv, Char.ofNatAux, Char.toNat, UInt32.toNat]
  simp [BitVec.toNat_ofNatLt]

theorem lowerChar_toNat_of_upper (c : Char) (h1 : 65 ≤ c.toNat) (h2 : c.toNat ≤ 90) :
    (lowerChar c).toNat = c.toNat + 32 := by
  unfold lowerChar
  rw [if_pos ⟨h1, h2⟩]
  exact toNat_ofNat_small _ (by omega)

theorem lowerChar_eq_self (c : Char) (h : ¬ (65 ≤ c.toNat ∧ c.toNat ≤ 90)) :
    lowerChar c = c := by
  unfold lowerChar
  exact if_neg h

theorem lowerChar_not_upper (c : Char) :
    ¬ (65 ≤ (lowerChar c).toNat ∧ (lowerChar c).toNat ≤ 90) := by
  by_cases h : 65 ≤ c.toNat ∧ c.toNat ≤ 90
  · rw [lowerChar_toNat_of_upper c h.1 h.2]
    omega
  · rw [lowerChar_eq_self c h]
    exact h

theorem lowerChar_idem (c : Char) : lowerChar (lowerChar c) = lowerChar c :=
  lowerChar_eq_self _ (lowerChar_not_upper c)

theorem lowerStr_idem (l : Str) : lowerStr (lowerStr l) = lowerStr l := by
  unfold lowerStr
  rw [List.map_map]
  exact List.map_congr_left (fun c _ => lowerChar_idem c)

/-! ### Helper lemmas: `pyStrip`, `pyUniq` -/

theorem mem_rstripGo (a : Char) : ∀ (l run : Str), a ∈ rstripGo run l → a ∈ run ∨ a ∈ l
  | [], run => by simp [rstripGo]
  | c :: rest, run => by
    simp only [rstripGo]
    split
    · intro h
      rcases mem_rstripGo a rest (run ++ [c]) h with h' | h'
      · rcases List.mem_append.1 h' with h'' | h''
        · exact Or.inl h''
        · simp at h''
          simp [h'']
      · simp [h']
    · intro h
      rcases List.mem_append.1 h with h' | h'
      · exact Or.inl h'
      · rcases List.mem_cons.1 h' with h'' | h''
        · simp [h'']
        · rcases mem_rstripGo a rest [] h'' with h3 | h3
          · simp at h3
          · simp [h3]

theorem mem_pyStrip (a : Char) (l : Str) (h : a ∈ pyStrip l) : a ∈ l := by
  unfold pyStrip at h
  rcases mem_rstripGo a _ [] h with h' | h'
  · simp at h'
  · exact (List.dropWhile_sublist wsb).mem h'

theorem mem_pyUniqGo {α : Type} [DecidableEq α] (a : α) :
    ∀ (l acc : List α), a ∈ pyUniqGo acc l → a ∈ acc ∨ a ∈ l
  | [], acc => by simp [pyUniqGo]
  | u :: rest, acc => by
    simp only [pyUniqGo]
    split
    · intro h
      rcases mem_pyUniqGo a rest acc h with h' | h'
      · exact Or.inl h'
      · simp [h']
    · intro h
      rcases mem_pyUniqGo a rest (acc ++ [u]) h with h' | h'
      · rcases List.mem_append.1 h' with h'' | h''
        · exact Or.inl h''
        · simp at h''
          simp [h'']
      · simp [h']

theorem nodup_pyUniqGo {α : Type} [DecidableEq α] :
    ∀ (l acc : List α), acc.Nodup → (pyUniqGo acc l).Nodup
  | [], acc => by simp [pyUniqGo]
  | u :: rest, acc => by
    intro hacc
    by_cases hmem : u ∈ acc
    · simpa only [pyUniqGo, if_pos hmem] using nodup_pyUniqGo rest acc hacc
    · simp only [pyUniqGo, if_neg hmem]
      refine nodup_pyUniqGo rest (acc ++ [u]) ?_
      rw [List.nodup_append]
      refine ⟨hacc, List.nodup_singleton u, ?_⟩
      intro x hx
      simp only [List.mem_singleton]
      rintro rfl
      exact hmem hx

theorem pyUniq_nodup {α : Type} [DecidableEq α] (l : List α) : (pyUniq l).Nodup :=
  nodup_pyUniqGo l [] List.nodup_nil

theorem mem_pyUniq {α : Type} [DecidableEq α] {a : α} {l : List α}
    (h : a ∈ pyUniq l) : a ∈ l := by
  rcases mem_pyUniqGo a l [] h with h' | h'
  · simp at h'
  · exact h'

/-! ### Helper lemmas: skills -/

theorem extract_skills_block_len (t : Str) : (extract_skills_block t).length ≤ 30 := by
  unfold extract_skills_block
  exact List.length_take_le 30 _

theorem extract_skills_block_nodup (t : Str) : (extract_skills_block t).Nodup :=
  List.Nodup.sublist (List.take_sublist 30 _) (pyUniq_nodup _)

theorem mem_skillsFromTail_lowered (tail s : Str) (h : s ∈ skillsFromTail tail) :
    ∃ x, s = lowerStr x := by
  unfold skillsFromTail at h
  split at h
  · rcases List.mem_map.1 h with ⟨x, _, hx⟩
    exact ⟨pyStrip (x.filter keepPunct), hx.symm⟩
  · rcases List.mem_map.1 h with ⟨x, _, hx⟩
    exact ⟨pyStrip x, hx.symm⟩

theorem mem_skillsHeader_lowered (t s : Str) (h : s ∈ skillsHeader t) :
    ∃ x, s = lowerStr x := by
  unfold skillsHeader at h
  split at h
  · exact mem_skillsFromTail_lowered _ s h
  · simp at h

theorem mem_skillsInline_lowered (t s : Str) (h : s ∈ skillsInline t) :
    ∃ x, s = lowerStr x := by
  unfold skillsInline at h
  rcases List.mem_flatMap.1 h with ⟨part, _, hmem⟩
  rcases List.mem_map.1 hmem with ⟨x, _, hx⟩
  exact ⟨pyStrip x, hx.symm⟩

theorem mem_extract_skills_block_lowered (t : Str) (s : Str)
    (h : s ∈ extract_skills_block t) : ∃ x, s = lowerStr x := by
  unfold extract_skills_block at h
  have h1 := mem_pyUniq ((List.take_sublist 30 _).subset h)
  split at h1
  · exact mem_skillsInline_lowered t s h1
  · exact mem_skillsHeader_lowered t s h1

theorem commonSkills_lowered : ∀ s ∈ commonSkills, lowerStr s = s := by decide

theorem mem_titleSkills_lowered (title s : Str) (h : s ∈ titleSkills title) :
    ∃ x, s = lowerStr x := by
  unfold titleSkills at h
  rcases List.mem_map.1 (List.mem_of_mem_filter h) with ⟨x, _, hx⟩
  exact ⟨x, hx.symm⟩

theorem mem_skillsOf_lowered (b title s : Str) (h : s ∈ skillsOf b title) :
    lowerStr s = s := by
  unfold skillsOf at h
  split at h
  · rcases mem_extract_skills_block_lowered b s h with ⟨x, hx⟩
    rw [hx, lowerStr_idem]
  · split at h
    · rcases mem_titleSkills_lowered title s h with ⟨x, hx⟩
      rw [hx, lowerStr_idem]
    · exact commonSkills_lowered s (List.mem_of_mem_filter h)

/-! ### Helper lemmas: description and records -/

theorem descOf_len (lines : List Str) (title : Str) :
    (descOf lines title).length ≤ 2003 := by
  unfold descOf
  split
  · rw [List.length_append, List.length_take]
    have : ("...".toList).length = 3 := by decide
    omega
  · omega

theorem recordOf_role (b : Str) : (recordOf b).role = roleOf b := rfl

theorem recordOf_desc (b : Str) :
    (recordOf b).description = descOf (linesOf b) (roleOf b) := rfl

theorem recordOf_skills (b : Str) : (recordOf b).skills = skillsOf b (roleOf b) := rfl

/-! ### Helper lemmas: the block-assembly loop -/

theorem processBlocks_role_ne : ∀ (bs seen : List Str) (r : JobRecord),
    r ∈ processBlocks bs seen → r.role ≠ []
  | [], seen => by simp [processBlocks]
  | b :: bs, seen => by
    intro r hr
    unfold processBlocks at hr
    split at hr
    · exact processBlocks_role_ne bs seen r hr
    · split at hr
      · exact processBlocks_role_ne bs seen r hr
      · split at hr
        · exact processBlocks_role_ne bs seen r hr
        · rcases List.mem_cons.1 hr with h | h
          · subst h
            rw [recordOf_role]
            rename_i hguard
            intro hrole
            exact hguard (Or.inl hrole)
          · exact processBlocks_role_ne bs (keyOf b :: seen) r h

theorem processBlocks_len : ∀ (bs seen : List Str),
    (processBlocks bs seen).length ≤ bs.length
  | [], seen => by simp [processBlocks]
  | b :: bs, seen => by
    unfold processBlocks
    split
    · exact Nat.le_succ_of_le (processBlocks_len bs seen)
    · split
      · exact Nat.le_succ_of_le (processBlocks_len bs seen)
      · split
        · exact Nat.le_succ_of_le (processBlocks_len bs seen)
        · simpa using processBlocks_len bs (keyOf b :: seen)

theorem processBlocks_desc : ∀ (bs seen : List Str) (r : JobRecord),
    r ∈ processBlocks bs seen → r.description.length ≤ 2003
  | [], seen => by simp [processBlocks]
  | b :: bs, seen => by
    intro r hr
    unfold processBlocks at hr
    split at hr
    · exact processBlocks_desc bs seen r hr
    · split at hr
      · exact processBlocks_desc bs seen r hr
      · split at hr
        · exact processBlocks_desc bs seen r hr
        · rcases List.mem_cons.1 hr with h | h
          · subst h
            rw [recordOf_desc]
            exact descOf_len _ _
          · exact processBlocks_desc bs (keyOf b :: seen) r h

theorem processBlocks_skills_lowered : ∀ (bs seen : List Str) (r : JobRecord),
    r ∈ processBlocks bs seen → ∀ s ∈ r.skills, lowerStr s = s
  | [], seen => by simp [processBlocks]
  | b :: bs, seen => by
    intro r hr
    unfold processBlocks at hr
    split at hr
    · exact processBlocks_skills_lowered bs seen r hr
    · split at hr
      · exact processBlocks_skills_lowered bs seen r hr
      · split at hr
        · exact processBlocks_skills_lowered bs seen r hr
        · rcases List.mem_cons.1 hr with h | h
          · subst h
            intro s hs
            rw [recordOf_skills] at hs
            exact mem_skillsOf_lowered b (roleOf b) s hs
          · exact processBlocks_skills_lowered bs (keyOf b :: seen) r h

theorem processBlocks_keys : ∀ (bs seen : List Str),
    (∀ k ∈ (processBlocks bs seen).map (fun r => normKey r.role), k ∉ seen) ∧
    ((processBlocks bs seen).map (fun r => normKey r.role)).Nodup
  | [], seen => by simp [processBlocks]
  | b :: bs, seen => by
    unfold processBlocks
    split
    · exact processBlocks_keys bs seen
    · split
      · exact processBlocks_keys bs seen
      · split
        · exact processBlocks_keys bs seen
        · rename_i hguard
          rcases processBlocks_keys bs (keyOf b :: seen) with ⟨hnotin, hnodup⟩
          have hkey : normKey (recordOf b).role = keyOf b := rfl
          constructor
          · intro k hk
            rw [List.map_cons, List.mem_cons] at hk
            rcases hk with h | h
            · subst h
              rw [hkey]
              intro hmem
              exact hguard (Or.inr hmem)
            · intro hmem
              exact hnotin k h (List.mem_cons_of_mem _ hmem)
          · simp only [List.map_cons, List.nodup_cons]
            refine ⟨?_, hnodup⟩
            intro hmem
            rw [hkey] at hmem
            exact hnotin _ hmem (List.mem_cons_self _ _)

/-! ### Helper lemmas: the heuristic pipeline and `extract_jobs` -/

theorem heuristic_ne_nil (t : Str) : extract_jobs_heuristic t ≠ [] := by
  unfold extract_jobs_heuristic
  split
  · simp
  · assumption

theorem heuristic_role_ne (t : Str) (r : JobRecord)
    (h : r ∈ extract_jobs_heuristic t) : r.role ≠ [] := by
  unfold extract_jobs_heuristic at h
  split at h
  · rcases List.mem_singleton.1 h with rfl
    simp [fallbackRecord]
  · exact processBlocks_role_ne _ _ r h

theorem heuristic_desc_le (t : Str) (r : JobRecord)
    (h : r ∈ extract_jobs_heuristic t) : r.description.length ≤ 2003 := by
  unfold extract_jobs_heuristic at h
  split at h
  · rcases List.mem_singleton.1 h with rfl
    have h15 := List.length_take_le 1500 t
    simp only [fallbackRecord]
    omega
  · exact processBlocks_desc _ _ r h

theorem heuristic_keys_nodup (t : Str) :
    ((extract_jobs_heuristic t).map (fun r => normKey r.role)).Nodup := by
  unfold extract_jobs_heuristic
  split
  · simp
  · exact (processBlocks_keys _ _).2

theorem heuristic_skills_lowered (t : Str) (r : JobRecord)
    (h : r ∈ extract_jobs_heuristic t) : ∀ s ∈ r.skills, lowerStr s = s := by
  unfold extract_jobs_heuristic at h
  split at h
  · rcases List.mem_singleton.1 h with rfl
    intro s hs
    simp [fallbackRecord] at hs
  · exact processBlocks_skills_lowered _ _ r h

theorem extract_jobs_error (t : Str) :
    extract_jobs (Except.error ()) t = extract_jobs_heuristic (pyStrip t) := rfl

theorem extract_jobs_ne_nil (llm : Except Unit (List RawJob)) (t : Str) :
    extract_jobs llm t ≠ [] := by
  unfold extract_jobs
  cases llm with
  | error e => exact heuristic_ne_nil _
  | ok parsed =>
    by_cases hp : parsed = []
    · simpa [hp] using heuristic_ne_nil (pyStrip t)
    · simp only [hp, if_neg hp, if_false]
      exact fun h => hp (List.map_eq_nil_iff.1 h)

/-! ### Helper lemmas: the composer never returns an empty string -/

theorem slGo_nl (acc rest : Str) :
    slGo acc ('\n' :: rest) = acc.reverse :: slGo [] rest := by
  conv_lhs => rw [slGo.eq_def]
  simp

theorem slGo_crnl (acc rest : Str) :
    slGo acc ('\r' :: '\n' :: rest) = acc.reverse :: slGo [] rest := by
  conv_lhs => rw [slGo.eq_def]
  simp

theorem slGo_cr_nil (acc : Str) : slGo acc ['\r'] = [acc.reverse] := by
  conv_lhs => rw [slGo.eq_def]
  simp

theorem slGo_cr_other (acc : Str) (d : Char) (rest : Str) (hd : d ≠ '\n') :
    slGo acc ('\r' :: d :: rest) = acc.reverse :: slGo [] (d :: rest) := by
  conv_lhs => rw [slGo.eq_def]
  simp [hd]

theorem slGo_other (acc : Str) (c : Char) (rest : Str) (hc : c ≠ '\r')
    (hc2 : c ≠ '\n') : slGo acc (c :: rest) = slGo (c :: acc) rest := by
  conv_lhs => rw [slGo.eq_def]
  simp [hc, hc2]

theorem slGo_ne_nil : ∀ (t acc : Str), t ≠ [] ∨ acc ≠ [] → slGo acc t ≠ []
  | [], acc => by
    intro h
    rcases h with h | h
    · exact absurd rfl h
    · simp [slGo, h]
  | c :: rest, acc => by
    intro _
    by_cases hc : c = '\r'
    · subst hc
      cases rest with
      | nil => simp [slGo_cr_nil]
      | cons d rest2 =>
        by_cases hd : d = '\n'
        · subst hd
          simp [slGo_crnl]
        · simp [slGo_cr_other acc d rest2 hd]
    · by_cases hc2 : c = '\n'
      · subst hc2
        simp [slGo_nl]
      · rw [slGo_other acc c rest hc hc2]
        exact slGo_ne_nil rest (c :: acc) (Or.inr (by simp))

theorem slGo_two : ∀ (xs ys acc : Str), ys ≠ [] →
    2 ≤ (slGo acc (xs ++ '\n' :: ys)).length
  | [], ys, acc => by
    intro hys
    rw [List.nil_append, slGo_nl]
    have h2 := List.length_pos.2 (slGo_ne_nil ys [] (Or.inl hys))
    simp only [List.length_cons]
    omega
  | c :: xs, ys, acc => by
    intro hys
    by_cases hc : c = '\r'
    · subst hc
      cases xs with
      | nil =>
        rw [List.cons_append, List.nil_append, slGo_crnl]
        have h2 := List.length_pos.2 (slGo_ne_nil ys [] (Or.inl hys))
        simp only [List.length_cons]
        omega
      | cons x xs' =>
        by_cases hx : x = '\n'
        · subst hx
          rw [List.cons_append, List.cons_append, slGo_crnl]
          have h2 := List.length_pos.2
            (slGo_ne_nil (xs' ++ '\n' :: ys) [] (Or.inl (by simp)))
          simp only [List.length_cons]
          omega
        · rw [List.cons_append, List.cons_append, slGo_cr_other _ _ _ hx]
          have h2 := List.length_pos.2
            (slGo_ne_nil (x :: (xs' ++ '\n' :: ys)) [] (Or.inl (by simp)))
          simp only [List.length_cons]
          omega
    · by_cases hc2 : c = '\n'
      · subst hc2
        rw [List.cons_append, slGo_nl]
        have h2 := List.length_pos.2
          (slGo_ne_nil (xs ++ '\n' :: ys) [] (Or.inl (by simp)))
        simp only [List.length_cons]
        omega
      · rw [List.cons_append, slGo_other _ _ _ hc hc2]
        exact slGo_two xs ys (c :: acc) hys

theorem joinWith_ne_nil (sep : Str) (hsep : sep ≠ []) :
    ∀ xs : List Str, 2 ≤ xs.length → joinWith sep xs ≠ []
  | [] => by simp
  | [x] => by simp
  | x :: y :: rest => by
    intro _
    simp only [joinWith, ne_eq, List.append_assoc]
    intro h
    rcases List.append_eq_nil.1 h with ⟨_, h2⟩
    rcases List.append_eq_nil.1 h2 with ⟨h3, _⟩
    exact hsep h3

theorem emailText_shape (rand : Nat × Nat) (job : JobRecord) (links : List Str)
    (sender : Str) :
    emailText rand job links sender =
      ("Subject: ".toList ++ subjectOf rand.1 job.role) ++ '\n' ::
        ('\n' :: (bodyOf rand.2 job.role (skillStrOf job) (snippetOf job) ++
          (linksBlockOf links ++
            ("\n\nBest regards,\n".toList ++ sender ++
              "\n[your-email@example.com]".toList)))) := by
  unfold emailText
  simp [List.append_assoc]

theorem compose_fallback_ne (rand : Nat × Nat) (job : JobRecord)
    (links : List Str) (sender : Str) :
    compose_fallback rand job links sender ≠ [] := by
  unfold compose_fallback
  apply joinWith_ne_nil ['\n'] (by simp)
  rw [List.length_map]
  unfold pySplitlines
  rw [emailText_shape]
  exact slGo_two _ _ [] (by simp)

/-! ### Helper lemmas: case-insensitivity of the link lookup -/

theorem char_eq_of_toNat {a b : Char} (h : a.toNat = b.toNat) : a = b :=
  Char.ext (UInt32.ext h)

theorem wsb_lowerChar (c : Char) : wsb (lowerChar c) = wsb c := by
  by_cases h : 65 ≤ c.toNat ∧ c.toNat ≤ 90
  · have h1 := lowerChar_toNat_of_upper c h.1 h.2
    have hl : wsb (lowerChar c) = false := by
      unfold wsb
      rw [h1]
      simp only [Bool.or_eq_false_iff, decide_eq_false_iff_not]
      omega
    have hr : wsb c = false := by
      unfold wsb
      simp only [Bool.or_eq_false_iff, decide_eq_false_iff_not]
      omega
    rw [hl, hr]
  · rw [lowerChar_eq_self c h]

theorem lowerChar_eq_comma_iff (c : Char) : lowerChar c = ',' ↔ c = ',' := by
  constructor
  · intro h
    by_cases hu : 65 ≤ c.toNat ∧ c.toNat ≤ 90
    · exfalso
      have h1 := lowerChar_toNat_of_upper c hu.1 hu.2
      rw [h] at h1
      have : (','.toNat) = 44 := by decide
      omega
    · rwa [lowerChar_eq_self c hu] at h
  · intro h
    subst h
    decide

theorem scGo_map : ∀ (q acc : Str),
    scGo (acc.map lowerChar) (q.map lowerChar) = (scGo acc q).map (List.map lowerChar)
  | [], acc => by simp [scGo]
  | c :: q, acc => by
    simp only [List.map_cons, scGo]
    by_cases hc : c = ','
    · subst hc
      rw [if_pos (by decide), if_pos rfl]
      have hih := scGo_map q []
      simp only [List.map_nil] at hih
      simp [hih]
    · rw [if_neg (fun h => hc (lowerChar_eq_comma_iff c |>.1 h)), if_neg hc]
      have hih := scGo_map q (c :: acc)
      simpa using hih

theorem rstripGo_map : ∀ (l run : Str),
    rstripGo (run.map lowerChar) (l.map lowerChar) = (rstripGo run l).map lowerChar
  | [], run => by simp [rstripGo]
  | c :: l, run => by
    simp only [List.map_cons, rstripGo, wsb_lowerChar c]
    by_cases h : wsb c
    · rw [if_pos h, if_pos h]
      have hih := rstripGo_map l (run ++ [c])
      simpa using hih
    · rw [if_neg h, if_neg h]
      have hih := rstripGo_map l []
      simp only [List.map_nil] at hih
      simp [hih]

theorem pyStrip_map_lower (l : Str) : pyStrip (lowerStr l) = lowerStr (pyStrip l) := by
  unfold pyStrip lowerStr
  rw [List.dropWhile_map]
  have hws : (wsb ∘ lowerChar) = wsb := funext wsb_lowerChar
  rw [hws]
  have := rstripGo_map (l.dropWhile wsb) []
  simpa using this

theorem parseSkills_lower (q : Str) : parseSkills (lowerStr q) = parseSkills q := by
  unfold parseSkills
  have h1 : splitComma (lowerStr q) = (splitComma q).map lowerStr := by
    unfold splitComma
    have := scGo_map q []
    simpa [lowerStr] using this
  rw [h1, List.filter_map, List.map_map]
  have hfil : List.filter ((fun x => decide (pyStrip x ≠ [])) ∘ lowerStr) (splitComma q) =
      List.filter (fun x => decide (pyStrip x ≠ [])) (splitComma q) := by
    apply List.filter_congr
    intro x _
    simp only [Function.comp]
    rw [pyStrip_map_lower]
    simp [lowerStr]
  rw [hfil]
  apply List.map_congr_left
  intro x _
  simp only [Function.comp]
  rw [pyStrip_map_lower, lowerStr_idem]

theorem qlResults_nil_query : ∀ rows : List PRow,
    qlResults [] rows = (rows.filter (fun r => r.url ≠ [])).map (fun r => r.url)
  | [] => rfl
  | row :: rest => by
    simp only [qlResults, List.filter_cons]
    by_cases h : row.url ≠ []
    · simp [h, qlResults_nil_query rest]
    · simp only [ne_eq, Bool.not_eq_true] at h
      simp [h, qlResults_nil_query rest]

/-! ### Helper lemmas: paragraph-only segmentation (no marker split) -/

theorem containsSub_cons (p : Str) (c : Char) (l : Str)
    (h : containsSub p l = true) : containsSub p (c :: l) = true := by
  cases l with
  | nil =>
    simp [containsSub] at h
    simp [containsSub, h, startsWith]
  | cons d rest =>
    simp only [containsSub] at *
    rw [h]
    simp

theorem containsSub_append_left (p : Str) : ∀ (xs l : Str),
    containsSub p l = true → containsSub p (xs ++ l) = true
  | [], l => fun h => h
  | x :: xs, l => fun h => by
    rw [List.cons_append]
    exact containsSub_cons p x _ (containsSub_append_left p xs l h)

theorem sbGo_single : ∀ (t cur : Str) (cnt : Nat), cnt ≤ 1 →
    containsSub ['\n', '\n'] (List.replicate cnt '\n' ++ t) = false →
    (sbGo cur cnt t).length = 1
  | [], cur, cnt => by
    intro hcnt _
    unfold sbGo
    rw [if_neg (by omega)]
    simp
  | c :: rest, cur, cnt => by
    intro hcnt hsub
    by_cases hc : c = '\n'
    · subst hc
      have hcnt0 : cnt = 0 := by
        rcases Nat.le_one_iff_eq_zero_or_eq_one.1 hcnt with h | h
        · exact h
        · exfalso
          subst h
          simp only [List.replicate, List.cons_append, List.nil_append] at hsub
          simp [containsSub, startsWith] at hsub
      subst hcnt0
      have h1 : sbGo cur 0 ('\n' :: rest) = sbGo cur 1 rest := by
        conv_lhs => rw [sbGo.eq_def]
        simp
      rw [h1]
      refine sbGo_single rest cur 1 (by omega) ?_
      simp only [List.replicate, List.nil_append, List.cons_append]
      simpa [containsSub] using hsub
    · have h1 : sbGo cur cnt (c :: rest) =
          sbGo (c :: (List.replicate cnt '\n' ++ cur)) 0 rest := by
        conv_lhs => rw [sbGo.eq_def]
        simp [hc]
        intro h2
        omega
      rw [h1]
      refine sbGo_single rest _ 0 (by omega) ?_
      simp only [List.replicate, List.nil_append]
      revert hsub
      rw [← Bool.not_eq_true, ← Bool.not_eq_true]
      intro hsub hrest
      exact hsub (containsSub_append_left _ _ _ (containsSub_cons _ c _ hrest))

theorem splitBlank_single (t : Str)
    (h : containsSub ['\n', '\n'] t = false) : (splitBlank t).length = 1 := by
  unfold splitBlank
  exact sbGo_single t [] 0 (by omega) (by simpa using h)

theorem heuristic_single (t : Str)
    (h : containsSub ['\n', '\n'] t = false) :
    (extract_jobs_heuristic t).length ≤ 1 := by
  have hblocks : (paraBlocks t).length ≤ 1 := by
    unfold paraBlocks
    calc (((splitBlank t).map pyStrip).filter _).length
        ≤ ((splitBlank t).map pyStrip).length := List.length_filter_le _ _
      _ = (splitBlank t).length := List.length_map _ _
      _ = 1 := splitBlank_single t h
  have hrec := processBlocks_len (paraBlocks t) []
  unfold extract_jobs_heuristic
  split
  · simp
  · omega

/-! ### Helper lemmas: `pyStrip` fixed points, LLM-path projection -/

theorem rstripGo_eq_append : ∀ (l run : Str) (a : Char),
    l.getLast? = some a → wsb a = false → rstripGo run l = run ++ l
  | [], run, a => by simp
  | [c], run, a => by
    intro h hw
    simp only [List.getLast?_singleton, Option.some_inj] at h
    subst h
    unfold rstripGo
    rw [if_neg (by rw [hw]; simp)]
    rfl
  | c :: d :: rest, run, a => by
    intro h hw
    rw [List.getLast?_cons_cons] at h
    by_cases hc : wsb c
    · unfold rstripGo
      rw [if_pos hc]
      rw [rstripGo_eq_append (d :: rest) (run ++ [c]) a h hw]
      simp
    · unfold rstripGo
      rw [if_neg hc]
      rw [rstripGo_eq_append (d :: rest) [] a h hw]
      simp

theorem pyStrip_eq_of (l : Str) (h1 : ∀ h, l.head? = some h → wsb h = false)
    (h2 : ∀ a, l.getLast? = some a → wsb a = false) : pyStrip l = l := by
  cases l with
  | nil => rfl
  | cons c rest =>
    have hc : wsb c = false := h1 c rfl
    unfold pyStrip
    rw [List.dropWhile_cons, hc]
    simp only [Bool.false_eq_true, if_false]
    have hne : (c :: rest) ≠ [] := by simp
    obtain ⟨a, ha⟩ := Option.isSome_iff_exists.1 (List.getLast?_isSome.2 hne)
    have := rstripGo_eq_append (c :: rest) [] a ha (h2 a ha)
    simpa using this

theorem extract_jobs_ok_cons (o : RawJob) (os : List RawJob) (t : Str) :
    extract_jobs (Except.ok (o :: os)) t = (o :: os).map normRaw := by
  unfold extract_jobs
  simp

set_option maxRecDepth 8000

/-! ### The claims -/

/-- C1, counterexample: when the generative collaborator's parsed response
is the non-empty array `[{"role": "", ...}]`, `extract_jobs` returns it
after trimming, so a returned record has an empty `role` — the claim
"every record in the returned list has a non-empty role field" is false as
stated over all of `extract_jobs`. -/
theorem C1_counterexample :
    ¬ (∀ r ∈ extract_jobs (Except.ok [⟨[], [], [], []⟩]) [], r.role ≠ []) := by
  decide

/-- C1, amended: `extract_jobs` always returns a non-empty list (on every
path), and on the heuristic path — collaborator absent or failed — every
returned record has a non-empty `role` (the fallback record "Unknown role"
guarantees both when nothing else applies); records returned by a
successful generative extraction carry the collaborator's role values
verbatim (trimmed), which may be empty. -/
theorem C1_amended :
    (∀ (llm : Except Unit (List RawJob)) (t : Str), extract_jobs llm t ≠ []) ∧
    (∀ (t : Str) (r : JobRecord),
      r ∈ extract_jobs (Except.error ()) t → r.role ≠ []) :=
  ⟨extract_jobs_ne_nil,
   fun t r h => heuristic_role_ne (pyStrip t) r (by rwa [extract_jobs_error] at h)⟩

/-- C1, witness: the amended theorem applied to the empty input, whose
single fallback record has role "Unknown role". -/
theorem C1_witness :
    (fallbackRecord [] ∈ extract_jobs (Except.error ()) []) ∧
    (fallbackRecord []).role ≠ [] :=
  ⟨by decide, C1_amended.2 [] (fallbackRecord []) (by decide)⟩

/-- C2: both entry points are total.  `extract_jobs` returns a non-empty
list for every collaborator outcome and every string input; a failed
collaborator falls through to the heuristic pipeline on the stripped text.
`write_mail` with a failed collaborator falls through to the deterministic
template generator, whose output is never empty; a successful collaborator
response is returned stripped.  (Failures of the generative path are the
`Except.error` case — the source catches every exception of the `try`
blocks and falls through.) -/
theorem C2_theorem :
    (∀ (llm : Except Unit (List RawJob)) (t : Str), extract_jobs llm t ≠ []) ∧
    (∀ t : Str, extract_jobs (Except.error ()) t = extract_jobs_heuristic (pyStrip t)) ∧
    (∀ (rand : Nat × Nat) (job : JobRecord) (links : List Str) (sender : Str),
      write_mail (Except.error ()) rand job links sender =
        compose_fallback rand job links sender ∧
      write_mail (Except.error ()) rand job links sender ≠ []) ∧
    (∀ (content : Str) (rand : Nat × Nat) (job : JobRecord) (links : List Str)
      (sender : Str),
      write_mail (Except.ok content) rand job links sender = pyStrip content) :=
  ⟨extract_jobs_ne_nil, fun _ => rfl,
   fun rand job links sender => ⟨rfl, compose_fallback_ne rand job links sender⟩,
   fun _ _ _ _ _ => rfl⟩

/-- C4, counterexample: the delegated path applies no deduplication — a
parsed response with two identical objects yields two records sharing the
normalized title key, so the claim is false as stated over all of
`extract_jobs`. -/
theorem C4_counterexample :
    ¬ (((extract_jobs (Except.ok
          [⟨"Engineer".toList, [], [], []⟩, ⟨"Engineer".toList, [], [], []⟩]) []).map
        (fun r => normKey r.role)).Nodup) := by
  decide

/-- C4, amended: on the heuristic path (collaborator absent or failed) no
two returned records share the same normalized title key — a block is
rejected when its cleaned title is empty or its key was already seen; the
delegated path returns the collaborator's records without deduplication. -/
theorem C4_amended (t : Str) :
    ((extract_jobs (Except.error ()) t).map (fun r => normKey r.role)).Nodup := by
  rw [extract_jobs_error]
  exact heuristic_keys_nodup (pyStrip t)

/-- C5, counterexample: the title-token fallback applies no cap and no
deduplication (34 copies of "aws" in the title line yield 34 duplicate
skills), and the line-split layer applies no minimum-length and no stopword
filter (the single-character skill "c" is kept), so the claim's cap,
dedup, length and stopword parts are false. -/
theorem C5_counterexample :
    (¬ (∀ r ∈ extract_jobs (Except.error ())
          (joinWith [' '] (List.replicate 34 "aws".toList)),
        r.skills.length ≤ 30 ∧ r.skills.Nodup)) ∧
    (¬ (∀ r ∈ extract_jobs (Except.error ())
          "Senior Engineer role at Acme company great team\nRequirements\nC, Java".toList,
        ∀ s ∈ r.skills, 2 ≤ s.length)) :=
  ⟨by decide, by decide⟩

/-- C5, amended: the requirements-block extractor deduplicates preserving
first-seen order and caps at 30; and on the heuristic path, every skill of
every returned record is lower-cased.  The title/keyword fallback paths
are uncapped and undeduplicated, and no minimum-length, stopword or
general punctuation filter exists (punctuation is stripped only on
bulleted lines). -/
theorem C5_amended :
    (∀ t : Str, (extract_skills_block t).length ≤ 30 ∧ (extract_skills_block t).Nodup) ∧
    (∀ (t : Str) (r : JobRecord), r ∈ extract_jobs (Except.error ()) t →
      ∀ s ∈ r.skills, lowerStr s = s) :=
  ⟨fun t => ⟨extract_skills_block_len t, extract_skills_block_nodup t⟩,
   fun t r h => heuristic_skills_lowered (pyStrip t) r
     (by rwa [extract_jobs_error] at h)⟩

/-- C5, witness: the amended theorem applied to a concrete input whose
record carries the skills `["c", "java"]`. -/
theorem C5_witness :
    (({ role := "Senior Engineer role at Acme company great team".toList,
        experience := "Senior".toList,
        skills := [['c'], "java".toList],
        description := "Requirements C, Java".toList } : JobRecord) ∈
      extract_jobs (Except.error ())
        "Senior Engineer role at Acme company great team\nRequirements\nC, Java".toList) ∧
    lowerStr ['c'] = ['c'] :=
  ⟨by decide,
   C5_amended.2
     "Senior Engineer role at Acme company great team\nRequirements\nC, Java".toList
     { role := "Senior Engineer role at Acme company great team".toList,
       experience := "Senior".toList,
       skills := [['c'], "java".toList],
       description := "Requirements C, Java".toList }
     (by decide) ['c'] (by decide)⟩

/-- C6, counterexample: the delegated path applies no description cap — a
parsed response whose description has 2004 characters is returned
unchanged, so the claim is false as stated over all of `extract_jobs`. -/
theorem C6_counterexample :
    ¬ (∀ r ∈ extract_jobs (Except.ok
          [⟨"x".toList, [], [], ('a' :: List.replicate 2002 'b') ++ ['a']⟩]) [],
        r.description.length ≤ 2003) := by
  intro hall
  have hmem : normRaw ⟨"x".toList, [], [], ('a' :: List.replicate 2002 'b') ++ ['a']⟩ ∈
      extract_jobs (Except.ok
        [⟨"x".toList, [], [], ('a' :: List.replicate 2002 'b') ++ ['a']⟩]) [] := by
    rw [extract_jobs_ok_cons]
    simp
  have hlen := hall _ hmem
  have hdesc : (normRaw
      ⟨"x".toList, [], [], ('a' :: List.replicate 2002 'b') ++ ['a']⟩).description =
      ('a' :: List.replicate 2002 'b') ++ ['a'] := by
    show pyStrip (('a' :: List.replicate 2002 'b') ++ ['a']) = _
    apply pyStrip_eq_of
    · intro h hh
      simp at hh
      exact hh ▸ (by decide : wsb 'a' = false)
    · intro a ha
      rw [List.getLast?_concat] at ha
      simp at ha
      exact ha ▸ (by decide : wsb 'a' = false)
  rw [hdesc] at hlen
  simp only [List.length_append, List.length_cons, List.length_replicate,
    List.length_singleton] at hlen
  omega

/-- C6, amended: on the heuristic path every returned record's description
has at most 2003 characters (2000 plus the ellipsis, or the fallback
record's 1500-character truncation); descriptions returned by a successful
generative extraction are carried verbatim (trimmed) without a cap. -/
theorem C6_amended (t : Str) (r : JobRecord)
    (h : r ∈ extract_jobs (Except.error ()) t) : r.description.length ≤ 2003 :=
  heuristic_desc_le (pyStrip t) r (by rwa [extract_jobs_error] at h)

/-- C6, witness: the amended theorem applied to a short concrete input,
whose fallback record's description is the input itself. -/
theorem C6_witness :
    (fallbackRecord "hi".toList ∈ extract_jobs (Except.error ()) "hi".toList) ∧
    (fallbackRecord "hi".toList).description.length ≤ 2003 :=
  ⟨by decide, C6_amended "hi".toList (fallbackRecord "hi".toList) (by decide)⟩

/-- C7, counterexample: "please go to next page now" contains the phrase
"go to next page" claimed to be in the navigation set, yet the classifier
returns false — the source has no "go to next page" pattern, no "page \d+"
pagination pattern and no numeric-density rule. -/
theorem C7_counterexample :
    containsSub "go to next page".toList
      (lowerStr "please go to next page now".toList) = true ∧
    is_noise "please go to next page now".toList = false := by
  decide

/-- C7, amended: the classifier flags a block exactly when it has fewer
than 4 word tokens or case-insensitively contains one of the six fixed
phrases "skip to main content", "filter results", "select a language",
"clear filter", "menu", "brand" (no pagination or numeric-density rules);
the scenario block "Filter Results Page 2 of 10 Select a language" is
noise and extraction of it yields only the fallback record, never a record
from the block. -/
theorem C7_amended :
    (∀ t : Str, is_noise t = noiseSpecAmended t) ∧
    extract_jobs (Except.error ())
        "Filter Results Page 2 of 10 Select a language".toList =
      [fallbackRecord "Filter Results Page 2 of 10 Select a language".toList] :=
  ⟨fun _ => rfl, by decide⟩

/-- C8, counterexample: two job descriptions separated by the word "Apply"
on its own line (no blank lines) are not split — there is no marker split;
extraction returns a single record whose role is the first line, and no
record mentioning the second segment's "Data Analyst" exists. -/
theorem C8_counterexample :
    ((extract_jobs (Except.error ())
        "Senior Engineer wanted for backend work\nApply\nData Analyst wanted for insights work".toList).map
      (fun r => r.role) =
      ["Senior Engineer wanted for backend work".toList]) ∧
    (extract_jobs (Except.error ())
        "Senior Engineer wanted for backend work\nApply\nData Analyst wanted for insights work".toList).length = 1 := by
  decide

/-- C8, amended: the non-structural segmentation splits only on runs of
two or more newlines (discarding stripped fragments shorter than 40
characters or noisy); the job-boundary marker list is used only as a
substring filter in the optional HTML path.  Consequently an input whose
stripped text contains no two consecutive newlines yields at most one
record, regardless of occurrences of "Apply" or other markers. -/
theorem C8_amended (t : Str)
    (h : containsSub ['\n', '\n'] (pyStrip t) = false) :
    (extract_jobs (Except.error ()) t).length ≤ 1 := by
  rw [extract_jobs_error]
  exact heuristic_single (pyStrip t) h

/-- C8, witness: the amended theorem applied to a one-line input. -/
theorem C8_witness :
    containsSub ['\n', '\n'] (pyStrip "Senior Engineer wanted here".toList) = false ∧
    (extract_jobs (Except.error ()) "Senior Engineer wanted here".toList).length ≤ 1 :=
  ⟨by decide, C8_amended "Senior Engineer wanted here".toList (by decide)⟩

/-- C9, counterexample: a list-typed query is used verbatim — querying
`["AWS"]` against a row tagged "aws" returns nothing although the overlap
is case-insensitive (and the same query as a string returns the URL), so
the claim's "for every query, case-insensitive" part is false. -/
theorem C9_counterexample :
    query_links_list [⟨"t".toList, "https://x".toList, "aws".toList⟩]
      ["AWS".toList] = [] ∧
    query_links_str [⟨"t".toList, "https://x".toList, "aws".toList⟩]
      "AWS".toList = ["https://x".toList] := by
  decide

/-- C9, amended: string-typed queries are case-insensitive (lower-casing
the query string does not change the result); for every backing table and
query the result is deduplicated preserving first-seen order and capped at
10; an empty query returns all non-empty row URLs, deduplicated and
capped; and the scenario holds: one row `skills="python,aws"
url="https://x"`, querying "aws" returns `["https://x"]` and querying
"cobol" returns `[]`.  List-typed queries are compared verbatim against
the lower-cased row tags. -/
theorem C9_amended :
    (∀ (rows : List PRow) (q : Str),
      query_links_str rows (lowerStr q) = query_links_str rows q) ∧
    (∀ (rows : List PRow) (skills : List Str),
      (query_links_list rows skills).Nodup ∧
      (query_links_list rows skills).length ≤ 10) ∧
    (∀ rows : List PRow,
      query_links_list rows [] =
        (pyUniq ((rows.filter (fun r => r.url ≠ [])).map (fun r => r.url))).take 10) ∧
    (query_links_str [⟨"t".toList, "https://x".toList, "python,aws".toList⟩]
        "aws".toList = ["https://x".toList] ∧
     query_links_str [⟨"t".toList, "https://x".toList, "python,aws".toList⟩]
        "cobol".toList = []) :=
  ⟨fun rows q => by unfold query_links_str; rw [parseSkills_lower],
   fun rows skills =>
     ⟨List.Nodup.sublist (List.take_sublist _ _) (pyUniq_nodup _),
      List.length_take_le _ _⟩,
   fun rows => by unfold query_links_list; rw [qlResults_nil_query],
   by decide⟩

/-- C10: any block containing "menu" or "brand" case-insensitively
(including inside longer words) is classified as noise, and the block
assembly loop produces exactly the records it would produce with that
block removed — no record ever comes from such a block. -/
theorem C10_theorem (t : Str)
    (hmb : containsSub "menu".toList (lowerStr t) = true ∨
           containsSub "brand".toList (lowerStr t) = true) :
    is_noise t = true ∧
    ∀ (pre post seen : List Str),
      processBlocks (pre ++ t :: post) seen = processBlocks (pre ++ post) seen := by
  have hnoise : is_noise t = true := by
    unfold is_noise
    have hany : NAV_NOISE.any (fun p => containsSub p (lowerStr t)) = true := by
      rw [List.any_eq_true]
      rcases hmb with h | h
      · exact ⟨"menu".toList, by decide, h⟩
      · exact ⟨"brand".toList, by decide, h⟩
    rw [hany]
    simp
  refine ⟨hnoise, ?_⟩
  intro pre post seen
  induction pre generalizing seen with
  | nil =>
    simp only [List.nil_append]
    conv_lhs => rw [processBlocks]
    rw [if_pos hnoise]
  | cons b pre' ih =>
    simp only [List.cons_append]
    rw [processBlocks, processBlocks]
    by_cases h1 : is_noise b
    · rw [if_pos h1, if_pos h1]
      exact ih seen
    · rw [if_neg h1, if_neg h1]
      by_cases h2 : linesOf b = []
      · rw [if_pos h2, if_pos h2]
        exact ih seen
      · rw [if_neg h2, if_neg h2]
        by_cases h3 : roleOf b = [] ∨ keyOf b ∈ seen
        · rw [if_pos h3, if_pos h3]
          exact ih seen
        · rw [if_neg h3, if_neg h3]
          rw [ih (keyOf b :: seen)]

/-- C10, witness: a genuine-looking block containing "rebranding" is
classified as noise and contributes no record. -/
theorem C10_witness :
    is_noise "Our rebranding expert team ships projects".toList = true ∧
    processBlocks ["Our rebranding expert team ships projects".toList] [] = [] := by
  have h := C10_theorem "Our rebranding expert team ships projects".toList
    (Or.inr (by decide))
  refine ⟨h.1, ?_⟩
  have h2 := h.2 [] [] []
  simpa [processBlocks] using h2

/-! ### Idempotence of `clean_text` on carriage-return-free input.

The CRLF substitution is the identity on `\r`-free text; the space/tab
collapse establishes `noAdjB` and the newline collapse establishes `no3B`;
both predicates survive the later stages, and each collapse is the
identity on text satisfying its predicate; stripping is idempotent. -/

theorem subCRLF_eq_self : ∀ l : Str, '\r' ∉ l → subCRLF l = l
  | [] => fun _ => rfl
  | c :: rest => fun h => by
    have hc : c ≠ '\r' := fun hc => h (hc ▸ List.mem_cons_self c rest)
    have hrest : '\r' ∉ rest := fun hr => h (List.mem_cons_of_mem c hr)
    unfold subCRLF
    rw [if_neg hc]
    rw [subCRLF_eq_self rest hrest]

theorem mem_subCRLF (a : Char) : ∀ l : Str, a ∈ subCRLF l → a ∈ l ∨ a = '\n'
  | [] => by simp [subCRLF]
  | c :: rest => by
    intro h
    by_cases hc : c = '\r'
    · subst hc
      unfold subCRLF at h
      rw [if_pos rfl] at h
      cases rest with
      | nil => exact Or.inl (by simpa using h)
      | cons d rest2 =>
        change a ∈ (if d = '\n' then '\n' :: subCRLF rest2
          else '\r' :: subCRLF (d :: rest2)) at h
        by_cases hd : d = '\n'
        · subst hd
          rw [if_pos rfl] at h
          rcases List.mem_cons.1 h with h1 | h1
          · exact Or.inr h1
          · rcases mem_subCRLF a rest2 h1 with h2 | h2
            · exact Or.inl (by simp [h2])
            · exact Or.inr h2
        · rw [if_neg hd] at h
          rcases List.mem_cons.1 h with h1 | h1
          · exact Or.inl (by simp [h1])
          · rcases mem_subCRLF a (d :: rest2) h1 with h2 | h2
            · exact Or.inl (List.mem_cons_of_mem _ h2)
            · exact Or.inr h2
    · unfold subCRLF at h
      rw [if_neg hc] at h
      rcases List.mem_cons.1 h with h1 | h1
      · exact Or.inl (by simp [h1])
      · rcases mem_subCRLF a rest h1 with h2 | h2
        · exact Or.inl (by simp [h2])
        · exact Or.inr h2

theorem mem_flushST (a : Char) (run : Str) (h : a ∈ flushST run) :
    a ∈ run ∨ a = ' ' := by
  unfold flushST at h
  split at h
  · simp at h
    exact Or.inr h
  · exact Or.inl h

theorem mem_goST (a : Char) : ∀ (l run : Str), a ∈ goST run l → a ∈ run ∨ a ∈ l ∨ a = ' '
  | [], run => by
    intro h
    rcases mem_flushST a run h with h1 | h1
    · exact Or.inl h1
    · exact Or.inr (Or.inr h1)
  | c :: rest, run => by
    intro h
    unfold goST at h
    split at h
    · rcases mem_goST a rest (run ++ [c]) h with h1 | h1 | h1
      · rcases List.mem_append.1 h1 with h2 | h2
        · exact Or.inl h2
        · simp at h2
          exact Or.inr (Or.inl (by simp [h2]))
      · exact Or.inr (Or.inl (by simp [h1]))
      · exact Or.inr (Or.inr h1)
    · rcases List.mem_append.1 h with h1 | h1
      · rcases mem_flushST a run h1 with h2 | h2
        · exact Or.inl h2
        · exact Or.inr (Or.inr h2)
      · rcases List.mem_cons.1 h1 with h2 | h2
        · exact Or.inr (Or.inl (by simp [h2]))
        · rcases mem_goST a rest [] h2 with h3 | h3 | h3
          · simp at h3
          · exact Or.inr (Or.inl (by simp [h3]))
          · exact Or.inr (Or.inr h3)

theorem mem_flushNL (a : Char) (run : Str) (h : a ∈ flushNL run) :
    a ∈ run ∨ a = '\n' := by
  unfold flushNL at h
  split at h
  · simp at h
    exact Or.inr h
  · exact Or.inl h

theorem mem_goNL (a : Char) : ∀ (l run : Str), a ∈ goNL run l → a ∈ run ∨ a ∈ l ∨ a = '\n'
  | [], run => by
    intro h
    rcases mem_flushNL a run h with h1 | h1
    · exact Or.inl h1
    · exact Or.inr (Or.inr h1)
  | c :: rest, run => by
    intro h
    unfold goNL at h
    split at h
    · rcases mem_goNL a rest (run ++ [c]) h with h1 | h1 | h1
      · rcases List.mem_append.1 h1 with h2 | h2
        · exact Or.inl h2
        · simp at h2
          exact Or.inr (Or.inl (by simp [h2]))
      · exact Or.inr (Or.inl (by simp [h1]))
      · exact Or.inr (Or.inr h1)
    · rcases List.mem_append.1 h with h1 | h1
      · rcases mem_flushNL a run h1 with h2 | h2
        · exact Or.inl h2
        · exact Or.inr (Or.inr h2)
      · rcases List.mem_cons.1 h1 with h2 | h2
        · exact Or.inr (Or.inl (by simp [h2]))
        · rcases mem_goNL a rest [] h2 with h3 | h3 | h3
          · simp at h3
          · exact Or.inr (Or.inl (by simp [h3]))
          · exact Or.inr (Or.inr h3)

theorem cr_not_mem_cleanStr (l : Str) (h : '\r' ∉ l) : '\r' ∉ cleanStr l := by
  intro hmem
  unfold cleanStr at hmem
  have h1 := mem_pyStrip _ _ hmem
  rcases mem_goNL '\r' _ [] h1 with h2 | h2 | h2
  · simp at h2
  · rcases mem_goST '\r' _ [] h2 with h3 | h3 | h3
    · simp at h3
    · rcases mem_subCRLF '\r' l h3 with h4 | h4
      · exact h h4
      · simp at h4
    · simp at h3
  · simp at h2

theorem noAdjB_tail (c : Char) (t : Str) (h : noAdjB (c :: t) = true) :
    noAdjB t = true := by
  cases t with
  | nil => rfl
  | cons d t' =>
    unfold noAdjB at h
    rw [Bool.and_eq_true] at h
    exact h.2

theorem noAdjB_pair {a b : Char} {t : Str} (h : noAdjB (a :: b :: t) = true) :
    (stb a && stb b) = false := by
  unfold noAdjB at h
  rw [Bool.and_eq_true] at h
  have h1 := h.1
  cases hx : (stb a && stb b) with
  | false => rfl
  | true => rw [hx] at h1; simp at h1

theorem noAdjB_cons_build (c : Char) (T : Str)
    (hhead : ∀ h, T.head? = some h → (stb c && stb h) = false)
    (hT : noAdjB T = true) : noAdjB (c :: T) = true := by
  cases T with
  | nil => rfl
  | cons h0 t' =>
    unfold noAdjB
    rw [Bool.and_eq_true]
    exact ⟨by rw [hhead h0 rfl]; rfl, hT⟩

theorem noAdjB_append_right : ∀ (xs ys : Str),
    noAdjB (xs ++ ys) = true → noAdjB ys = true
  | [], _ => fun h => h
  | x :: xs, ys => fun h =>
    noAdjB_append_right xs ys (noAdjB_tail x (xs ++ ys) (by simpa using h))

theorem noAdjB_append_left : ∀ (xs ys : Str),
    noAdjB (xs ++ ys) = true → noAdjB xs = true
  | [], _ => fun _ => rfl
  | [_], _ => fun _ => rfl
  | x1 :: x2 :: t, ys => fun h => by
    have hh : noAdjB (x1 :: x2 :: (t ++ ys)) = true := by simpa using h
    unfold noAdjB at hh ⊢
    rw [Bool.and_eq_true] at hh ⊢
    exact ⟨hh.1, noAdjB_append_left (x2 :: t) ys hh.2⟩

theorem noAdjB_glue : ∀ (xs : Str) (c : Char) (ys : Str),
    noAdjB (xs ++ [c]) = true → noAdjB (c :: ys) = true →
    noAdjB (xs ++ c :: ys) = true
  | [], _, _ => fun _ h2 => h2
  | [x], c, ys => fun h1 h2 => by
    have hp : (stb x && stb c) = false := noAdjB_pair (by simpa using h1)
    show noAdjB (x :: c :: ys) = true
    unfold noAdjB
    rw [Bool.and_eq_true]
    exact ⟨by rw [hp]; rfl, h2⟩
  | x1 :: x2 :: t, c, ys => fun h1 h2 => by
    have hh : noAdjB (x1 :: x2 :: (t ++ [c])) = true := by simpa using h1
    have hrec := noAdjB_glue (x2 :: t) c ys (noAdjB_tail _ _ hh) h2
    show noAdjB (x1 :: x2 :: (t ++ c :: ys)) = true
    unfold noAdjB at hh ⊢
    rw [Bool.and_eq_true] at hh ⊢
    exact ⟨hh.1, by simpa using hrec⟩

theorem noAdjB_mid (c : Char) (T p : Str) (hc : stb c = false)
    (hT : noAdjB T = true) (hp : p.length ≤ 1) : noAdjB (p ++ c :: T) = true := by
  match p, hp with
  | [], _ =>
    exact noAdjB_cons_build c T (fun h _ => by rw [hc]; rfl) hT
  | [x], _ =>
    show noAdjB (x :: c :: T) = true
    unfold noAdjB
    rw [Bool.and_eq_true]
    refine ⟨by rw [hc]; simp, ?_⟩
    exact noAdjB_cons_build c T (fun h _ => by rw [hc]; rfl) hT
  | x :: y :: t, hp =>
    exact absurd hp (by simp)

theorem noAdjB_allNl_append : ∀ (p : Str), (∀ x ∈ p, x = '\n') →
    ∀ z : Str, noAdjB z = true → noAdjB (p ++ z) = true
  | [], _ => fun _ h => h
  | p0 :: p', hall => fun z h => by
    have hp0 : p0 = '\n' := hall p0 (List.mem_cons_self _ _)
    have hrec := noAdjB_allNl_append p'
      (fun x hx => hall x (List.mem_cons_of_mem _ hx)) z h
    show noAdjB (p0 :: (p' ++ z)) = true
    apply noAdjB_cons_build
    · intro hh _
      rw [hp0]
      rfl
    · exact hrec

theorem allNl_noAdjB (p : Str) (h : ∀ x ∈ p, x = '\n') : noAdjB p = true := by
  have := noAdjB_allNl_append p h [] rfl
  simpa using this

theorem no3B_tail (c : Char) (t : Str) (h : no3B (c :: t) = true) :
    no3B t = true := by
  match t with
  | [] => rfl
  | [_] => rfl
  | a :: b :: t' =>
    unfold no3B at h
    rw [Bool.and_eq_true] at h
    exact h.2

theorem no3B_append_right : ∀ (xs ys : Str),
    no3B (xs ++ ys) = true → no3B ys = true
  | [], _ => fun h => h
  | x :: xs, ys => fun h =>
    no3B_append_right xs ys (no3B_tail x (xs ++ ys) (by simpa using h))

theorem no3B_append_left : ∀ (xs ys : Str),
    no3B (xs ++ ys) = true → no3B xs = true
  | [], _ => fun _ => rfl
  | [_], _ => fun _ => rfl
  | [_, _], _ => fun _ => rfl
  | x1 :: x2 :: x3 :: t, ys => fun h => by
    have hh : no3B (x1 :: x2 :: x3 :: (t ++ ys)) = true := by simpa using h
    unfold no3B at hh ⊢
    rw [Bool.and_eq_true] at hh ⊢
    exact ⟨hh.1, no3B_append_left (x2 :: x3 :: t) ys hh.2⟩

theorem no3B_cons_build (c : Char) (T : Str) (hc : decide (c = '\n') = false)
    (hT : no3B T = true) : no3B (c :: T) = true := by
  match T with
  | [] => rfl
  | [_] => rfl
  | a :: b :: t' =>
    unfold no3B
    rw [Bool.and_eq_true]
    exact ⟨by rw [hc]; rfl, hT⟩

theorem no3B_cons₂ (x c : Char) (T : Str) (hc : decide (c = '\n') = false)
    (hT : no3B (c :: T) = true) : no3B (x :: c :: T) = true := by
  match T with
  | [] => rfl
  | t0 :: t' =>
    unfold no3B
    rw [Bool.and_eq_true]
    exact ⟨by rw [hc]; simp, hT⟩

theorem no3B_mid (c : Char) (T p : Str) (hc : decide (c = '\n') = false)
    (hT : no3B T = true) (hp : p.length ≤ 2) : no3B (p ++ c :: T) = true := by
  match p, hp with
  | [], _ => exact no3B_cons_build c T hc hT
  | [x], _ => exact no3B_cons₂ x c T hc (no3B_cons_build c T hc hT)
  | [x, y], _ =>
    show no3B (x :: y :: c :: T) = true
    unfold no3B
    rw [Bool.and_eq_true]
    refine ⟨by rw [hc]; simp, ?_⟩
    exact no3B_cons₂ y c T hc (no3B_cons_build c T hc hT)
  | x :: y :: z :: t, hp => exact absurd hp (by simp)

theorem noAdjB_short (l : Str) (h : l.length ≤ 1) : noAdjB l = true := by
  match l, h with
  | [], _ => rfl
  | [_], _ => rfl
  | _ :: _ :: _, h => exact absurd h (by simp)

theorem no3B_short (l : Str) (h : l.length ≤ 2) : no3B l = true := by
  match l, h with
  | [], _ => rfl
  | [_], _ => rfl
  | [_, _], _ => rfl
  | _ :: _ :: _ :: _, h => exact absurd h (by simp)

theorem flushST_length (run : Str) : (flushST run).length ≤ 1 := by
  unfold flushST
  split
  · simp
  · omega

theorem flushST_short (run : Str) (h : run.length ≤ 1) : flushST run = run := by
  unfold flushST
  rw [if_neg (by omega)]

theorem flushNL_length (run : Str) : (flushNL run).length ≤ 2 := by
  unfold flushNL
  split
  · simp
  · omega

theorem flushNL_short (run : Str) (h : run.length ≤ 2) : flushNL run = run := by
  unfold flushNL
  rw [if_neg (by omega)]

theorem flushNL_allNl (run : Str) (h : ∀ c ∈ run, c = '\n') :
    ∀ c ∈ flushNL run, c = '\n' := by
  unfold flushNL
  split
  · intro c hc
    simp at hc
    exact hc
  · exact h

theorem flushNL_ne_nil (run : Str) (h : run ≠ []) : flushNL run ≠ [] := by
  unfold flushNL
  split
  · simp
  · exact h

/-- The space/tab collapse establishes `noAdjB`. -/
theorem goST_noAdj : ∀ (l run : Str), noAdjB (goST run l) = true
  | [], run => by
    unfold goST
    exact noAdjB_short _ (flushST_length run)
  | c :: rest, run => by
    unfold goST
    split
    · exact goST_noAdj rest (run ++ [c])
    · rename_i hc
      have hcf : stb c = false := by
        cases h : stb c
        · rfl
        · exact absurd h hc
      exact noAdjB_mid c _ _ hcf (goST_noAdj rest []) (flushST_length run)

/-- The newline collapse establishes `no3B`. -/
theorem goNL_no3 : ∀ (l run : Str), no3B (goNL run l) = true
  | [], run => by
    unfold goNL
    exact no3B_short _ (flushNL_length run)
  | c :: rest, run => by
    unfold goNL
    split
    · exact goNL_no3 rest (run ++ [c])
    · rename_i hc
      have hcf : decide (c = '\n') = false := by simpa using hc
      exact no3B_mid c _ _ hcf (goNL_no3 rest []) (flushNL_length run)

theorem flushNL_head (run : Str) (hne : run ≠ []) (hall : ∀ c ∈ run, c = '\n') :
    (flushNL run).head? = some '\n' := by
  unfold flushNL
  split
  · rfl
  · cases run with
    | nil => exact absurd rfl hne
    | cons r0 r' =>
      simp only [List.head?_cons]
      rw [hall r0 (List.mem_cons_self _ _)]

theorem goNL_head_some : ∀ (l run : Str), run ≠ [] → (∀ c ∈ run, c = '\n') →
    (goNL run l).head? = some '\n'
  | [], run => fun hne hall => by
    unfold goNL
    exact flushNL_head run hne hall
  | c :: rest, run => fun hne hall => by
    unfold goNL
    split
    · rename_i hc
      refine goNL_head_some rest (run ++ [c]) (by simp) ?_
      intro x hx
      rcases List.mem_append.1 hx with h | h
      · exact hall x h
      · simp at h
        rw [h, hc]
    · rw [List.head?_append_of_ne_nil _ (flushNL_ne_nil run hne)]
      exact flushNL_head run hne hall

theorem goNL_head_nil : ∀ l : Str,
    (goNL [] l).head? = l.head? ∨ (goNL [] l).head? = some '\n'
  | [] => Or.inl rfl
  | c :: rest => by
    unfold goNL
    split
    · rename_i hc
      right
      exact goNL_head_some rest [c] (by simp) (by simpa using hc)
    · left
      rfl

/-- The newline collapse preserves `noAdjB`. -/
theorem goNL_noAdj : ∀ (l run : Str), (∀ c ∈ run, c = '\n') →
    noAdjB (run ++ l) = true → noAdjB (goNL run l) = true
  | [], run => fun hall _ => by
    unfold goNL
    exact allNl_noAdjB (flushNL run) (flushNL_allNl run hall)
  | c :: rest, run => fun hall h => by
    unfold goNL
    split
    · rename_i hc
      refine goNL_noAdj rest (run ++ [c]) ?_ ?_
      · intro x hx
        rcases List.mem_append.1 hx with h1 | h1
        · exact hall x h1
        · simp at h1
          rw [h1, hc]
      · simpa [List.append_assoc] using h
    · rename_i hc
      have hcons : noAdjB (c :: rest) = true := noAdjB_append_right run _ h
      have hT : noAdjB (goNL [] rest) = true :=
        goNL_noAdj rest [] (by simp) (by simpa using noAdjB_tail c rest hcons)
      apply noAdjB_allNl_append (flushNL run) (flushNL_allNl run hall)
      apply noAdjB_cons_build
      · intro h0 hh0
        rcases goNL_head_nil rest with hl | hl
        · rw [hl] at hh0
          cases rest with
          | nil => simp at hh0
          | cons r0 r' =>
            simp only [List.head?_cons, Option.some_inj] at hh0
            have hcr := noAdjB_pair hcons
            rwa [hh0] at hcr
        · rw [hl] at hh0
          simp only [Option.some_inj] at hh0
          rw [← hh0]
          have hnl : stb '\n' = false := by decide
          rw [hnl, Bool.and_false]
      · exact hT

/-- The space/tab collapse is the identity on `noAdjB` text. -/
theorem goST_fix : ∀ (l run : Str),
    (run = [] ∨ ∃ x, run = [x] ∧ stb x = true) →
    noAdjB (run ++ l) = true → goST run l = run ++ l
  | [], run => fun hrun _ => by
    unfold goST
    rcases hrun with rfl | ⟨x, rfl, _⟩
    · rfl
    · simpa using flushST_short [x] (by simp)
  | c :: rest, run => fun hrun h => by
    unfold goST
    split
    · rename_i hc
      rcases hrun with rfl | ⟨x, rfl, hx⟩
      · have := goST_fix rest [c] (Or.inr ⟨c, rfl, hc⟩) (by simpa using h)
        simpa using this
      · exfalso
        have hp := noAdjB_pair (show noAdjB (x :: c :: rest) = true by simpa using h)
        rw [hx, hc] at hp
        simp at hp
    · rename_i hc
      have hrl : run.length ≤ 1 := by
        rcases hrun with rfl | ⟨x, rfl, _⟩ <;> simp
      rw [flushST_short run hrl]
      have hrest : noAdjB rest = true :=
        noAdjB_tail c rest (noAdjB_append_right run _ h)
      rw [goST_fix rest [] (Or.inl rfl) (by simpa using hrest)]
      simp

theorem collapseST_fix (l : Str) (h : noAdjB l = true) : collapseST l = l := by
  unfold collapseST
  simpa using goST_fix l [] (Or.inl rfl) (by simpa using h)

/-- The newline collapse is the identity on `no3B` text. -/
theorem goNL_fix : ∀ (l run : Str), (∀ c ∈ run, c = '\n') → run.length ≤ 2 →
    no3B (run ++ l) = true → goNL run l = run ++ l
  | [], run => fun _ hlen _ => by
    unfold goNL
    rw [flushNL_short run hlen]
    simp
  | c :: rest, run => fun hall hlen h => by
    unfold goNL
    split
    · rename_i hc
      by_cases h1 : run.length ≤ 1
      · have := goNL_fix rest (run ++ [c])
          (by
            intro x hx
            rcases List.mem_append.1 hx with h2 | h2
            · exact hall x h2
            · simp at h2
              rw [h2, hc])
          (by simp; omega)
          (by simpa [List.append_assoc] using h)
        simpa [List.append_assoc] using this
      · exfalso
        have h2 : run.length = 2 := by omega
        match run, h2 with
        | [a, b], _ =>
          have ha := hall a (by simp)
          have hb := hall b (by simp)
          subst ha hb hc
          simp only [List.cons_append, List.nil_append] at h
          unfold no3B at h
          rw [Bool.and_eq_true] at h
          simp at h
    · rename_i hc
      rw [flushNL_short run hlen]
      have hrest : no3B rest = true :=
        no3B_tail c rest (no3B_append_right run _ h)
      rw [goNL_fix rest [] (by simp) (by simp) (by simpa using hrest)]
      simp

theorem collapseNL_fix (l : Str) (h : no3B l = true) : collapseNL l = l := by
  unfold collapseNL
  simpa using goNL_fix l [] (by simp) (by simp) (by simpa using h)

/-- `rstripGo` output is a prefix of its input. -/
theorem rstripGo_prefix : ∀ (l run : Str), ∃ ys, run ++ l = rstripGo run l ++ ys
  | [], run => ⟨run, by simp [rstripGo]⟩
  | c :: rest, run => by
    unfold rstripGo
    split
    · obtain ⟨ys, hys⟩ := rstripGo_prefix rest (run ++ [c])
      exact ⟨ys, by simpa using hys⟩
    · obtain ⟨ys, hys⟩ := rstripGo_prefix rest []
      refine ⟨ys, ?_⟩
      simp only [List.nil_append] at hys
      conv_lhs => rw [hys]
      simp

theorem noAdjB_pyStrip (l : Str) (h : noAdjB l = true) :
    noAdjB (pyStrip l) = true := by
  have h1 : noAdjB (l.dropWhile wsb) = true := by
    obtain ⟨xs, hxs⟩ := List.dropWhile_suffix (l := l) wsb
    exact noAdjB_append_right xs _ (by rw [hxs]; exact h)
  obtain ⟨ys, hys⟩ := rstripGo_prefix (l.dropWhile wsb) []
  simp only [List.nil_append] at hys
  refine noAdjB_append_left _ ys ?_
  show noAdjB (rstripGo [] (l.dropWhile wsb) ++ ys) = true
  rw [← hys]
  exact h1

theorem no3B_pyStrip (l : Str) (h : no3B l = true) :
    no3B (pyStrip l) = true := by
  have h1 : no3B (l.dropWhile wsb) = true := by
    obtain ⟨xs, hxs⟩ := List.dropWhile_suffix (l := l) wsb
    exact no3B_append_right xs _ (by rw [hxs]; exact h)
  obtain ⟨ys, hys⟩ := rstripGo_prefix (l.dropWhile wsb) []
  simp only [List.nil_append] at hys
  refine no3B_append_left _ ys ?_
  show no3B (rstripGo [] (l.dropWhile wsb) ++ ys) = true
  rw [← hys]
  exact h1

theorem dropWhile_head_not : ∀ (l : Str) (h : Char),
    (l.dropWhile wsb).head? = some h → wsb h = false
  | [], h => by simp
  | c :: rest, h => by
    rw [List.dropWhile_cons]
    by_cases hc : wsb c
    · rw [hc]
      simp only [if_true]
      exact dropWhile_head_not rest h
    · have hcf : wsb c = false := by
        cases hx : wsb c
        · rfl
        · exact absurd hx hc
      rw [hcf]
      simp only [Bool.false_eq_true, if_false, List.head?_cons, Option.some_inj]
      intro he
      rw [← he]
      exact hcf

theorem rstripGo_head : ∀ (l run : Str),
    rstripGo run l = [] ∨ (rstripGo run l).head? = (run ++ l).head?
  | [], _ => Or.inl rfl
  | c :: rest, run => by
    unfold rstripGo
    split
    · rcases rstripGo_head rest (run ++ [c]) with h | h
      · exact Or.inl h
      · right
        rw [h]
        simp
    · right
      cases run with
      | nil => rfl
      | cons r0 r' => rfl

theorem rstripGo_last : ∀ (l run : Str),
    rstripGo run l = [] ∨
    ∃ a, (rstripGo run l).getLast? = some a ∧ wsb a = false
  | [], _ => Or.inl rfl
  | c :: rest, run => by
    unfold rstripGo
    split
    · exact rstripGo_last rest (run ++ [c])
    · rename_i hc
      have hcf : wsb c = false := by
        cases hx : wsb c
        · rfl
        · exact absurd hx hc
      right
      rcases rstripGo_last rest [] with h | ⟨a, ha, hwa⟩
      · rw [h]
        exact ⟨c, List.getLast?_concat run, hcf⟩
      · refine ⟨a, ?_, hwa⟩
        rw [List.getLast?_append, List.getLast?_cons]
        cases hT : rstripGo [] rest with
        | nil => rw [hT] at ha; simp at ha
        | cons t0 t' =>
          rw [hT] at ha
          rw [ha]
          rfl

theorem pyStrip_idem (l : Str) : pyStrip (pyStrip l) = pyStrip l := by
  by_cases hnil : pyStrip l = []
  · rw [hnil]
    rfl
  · apply pyStrip_eq_of
    · intro h hh
      rcases rstripGo_head (l.dropWhile wsb) [] with h0 | h0
      · exact absurd h0 hnil
      · have : (pyStrip l).head? = (l.dropWhile wsb).head? := by
          simpa using h0
        rw [this] at hh
        exact dropWhile_head_not l h hh
    · intro a ha
      rcases rstripGo_last (l.dropWhile wsb) [] with h0 | ⟨b, hb, hwb⟩
      · exact absurd h0 hnil
      · have hab : a = b := by
          have : (pyStrip l).getLast? = some b := hb
          rw [this] at ha
          simpa using ha.symm
        rw [hab]
        exact hwb

/-- `clean_text` maps `cleanStr l` to itself when `l` is `\r`-free. -/
theorem cleanStr_idem (l : Str) (h : '\r' ∉ l) :
    cleanStr (cleanStr l) = cleanStr l := by
  have hy : cleanStr l = pyStrip (collapseNL (collapseST l)) := by
    unfold cleanStr
    rw [subCRLF_eq_self l h]
  have hcr : '\r' ∉ cleanStr l := cr_not_mem_cleanStr l h
  have hAdj : noAdjB (cleanStr l) = true := by
    rw [hy]
    apply noAdjB_pyStrip
    unfold collapseNL
    apply goNL_noAdj _ [] (by simp)
    simpa [collapseST] using goST_noAdj l []
  have h3 : no3B (cleanStr l) = true := by
    rw [hy]
    apply no3B_pyStrip
    exact goNL_no3 _ []
  calc cleanStr (cleanStr l)
      = pyStrip (collapseNL (collapseST (subCRLF (cleanStr l)))) := rfl
    _ = pyStrip (collapseNL (collapseST (cleanStr l))) := by
        rw [subCRLF_eq_self _ hcr]
    _ = pyStrip (collapseNL (cleanStr l)) := by rw [collapseST_fix _ hAdj]
    _ = pyStrip (cleanStr l) := by rw [collapseNL_fix _ h3]
    _ = cleanStr l := by rw [hy]; exact pyStrip_idem _

/-- C3, counterexample: `clean_text` is not idempotent — on "a\r\r\nb" the
first pass rewrites the CRLF pair leaving a fresh "\r\n" behind, which a
second pass rewrites again. -/
theorem C3_counterexample :
    cleanStr (cleanStr "a\r\r\nb".toList) ≠ cleanStr "a\r\r\nb".toList := by
  decide

/-- C3, amended: `clean_text` is a total function, `None` and the empty
string yield the empty string, and it is idempotent on every input free of
carriage-return characters; in general a second application can rewrite
"\r\n" pairs newly formed by the left-to-right CRLF replacement of the
first. -/
theorem C3_amended :
    cleanText none = [] ∧ cleanStr [] = [] ∧
    (∀ l : Str, '\r' ∉ l → cleanStr (cleanStr l) = cleanStr l) :=
  ⟨rfl, rfl, cleanStr_idem⟩

/-- C3, witness: the amended idempotence applied to a concrete
carriage-return-free string. -/
theorem C3_witness :
    ('\r' ∉ "ab \t cd\n\n\ne".toList) ∧
    cleanStr (cleanStr "ab \t cd\n\n\ne".toList) = cleanStr "ab \t cd\n\n\ne".toList :=
  ⟨by decide, C3_amended.2.2 "ab \t cd\n\n\ne".toList (by decide)⟩

end ColdEmail
